import Mathlib

/-!
# Verification of the skim fuzzy matcher

A shallow embedding of `src/skim.rs` from the `fuzzy-matcher` crate:
the character classifier, the V1 sparse dynamic-programming matcher, and
the V2 affine-gap (Gotoh-style) matcher with its compressed-row mode,
simple fallback and per-thread scratch caches (modelled as explicit
state).  Strings are embedded as `List Char`; the Rust machine integers
`i32`/`i64` are embedded as `Int` (the source guards against overflow by
using the sentinel `i16::MIN` for impossible states), `usize` indices as
`Nat`.
-/

namespace Skim

/-- Rust `ScoreType` = `i64` (from the crate root, declared outside `src/`). -/
abbrev ScoreType := Int

/-- Rust `IndexType` = `usize`, used for character indices. -/
abbrev IndexType := Nat

/-! ## Character utilities (Rust `char` methods used by the source) -/

/-- Rust `char::to_ascii_lowercase`: maps `A`-`Z` to `a`-`z`, identity elsewhere. -/
def to_ascii_lowercase (c : Char) : Char :=
  if 65 ≤ c.toNat ∧ c.toNat ≤ 90 then Char.ofNat (c.toNat + 32) else c

/-- Rust `char::is_ascii_uppercase`. -/
def is_ascii_uppercase (c : Char) : Bool :=
  65 ≤ c.toNat && c.toNat ≤ 90

/-- Rust `char::is_ascii_digit`. -/
def is_ascii_digit (c : Char) : Bool :=
  48 ≤ c.toNat && c.toNat ≤ 57

/-- Rust `char::is_ascii_punctuation`: the four ASCII punctuation blocks. -/
def is_ascii_punctuation (c : Char) : Bool :=
  (0x21 ≤ c.toNat && c.toNat ≤ 0x2F) || (0x3A ≤ c.toNat && c.toNat ≤ 0x40) ||
  (0x5B ≤ c.toNat && c.toNat ≤ 0x60) || (0x7B ≤ c.toNat && c.toNat ≤ 0x7E)

/-- Rust `char::is_uppercase` (the Unicode `Uppercase` property).  This
embedding agrees with the Rust function on every code point below `0x100`
(ASCII plus Latin-1: `A`-`Z`, `À`-`Ö`, `Ø`-`Þ`); code points at or above
`0x100` are classified as non-uppercase here. -/
def rust_is_uppercase (c : Char) : Bool :=
  is_ascii_uppercase c || (0xC0 ≤ c.toNat && c.toNat ≤ 0xD6) ||
    (0xD8 ≤ c.toNat && c.toNat ≤ 0xDE)

/-! ## V1 scoring constants -/

def BONUS_MATCHED : ScoreType := 4
def BONUS_CASE_MATCH : ScoreType := 4
def BONUS_UPPER_MATCH : ScoreType := 6
def BONUS_ADJACENCY : ScoreType := 10
def BONUS_SEPARATOR : ScoreType := 8
def BONUS_CAMEL : ScoreType := 8
def PENALTY_CASE_UNMATCHED : ScoreType := -1
def PENALTY_LEADING : ScoreType := -6
def PENALTY_MAX_LEADING : ScoreType := -18
def PENALTY_UNMATCHED : ScoreType := -2

/-! ## Character classifier -/

/-- `CharType` from the source: category of a single character. -/
inductive CharType where
  | Empty
  | Upper
  | Lower
  | Number
  | HardSep
  | SoftSep
deriving DecidableEq, Repr

/-- `CharType::of`: classify a character.  `'\0'` is the sentinel before the
start of the string. -/
def CharType.of (ch : Char) : CharType :=
  if ch = '\x00' then .Empty
  else if ch = ' ' ∨ ch = '/' ∨ ch = '\\' ∨ ch = '|' ∨ ch = '(' ∨ ch = ')' ∨
      ch = '[' ∨ ch = ']' ∨ ch = '{' ∨ ch = '}' then .HardSep
  else if is_ascii_punctuation ch then .SoftSep
  else if is_ascii_digit ch then .Number
  else if is_ascii_uppercase ch then .Upper
  else .Lower

/-- `CharRole` from the source: role of a (previous, current) boundary. -/
inductive CharRole where
  | Head
  | Tail
  | Camel
  | Break
deriving DecidableEq, Repr

/-- `CharRole::of_type`. -/
def CharRole.of_type : CharType → CharType → CharRole
  | .Empty, _ => .Head
  | .HardSep, _ => .Head
  | .SoftSep, _ => .Break
  | .Lower, .Upper => .Camel
  | .Number, .Upper => .Camel
  | _, _ => .Tail

/-- `CharRole::of`. -/
def CharRole.of (prev cur : Char) : CharRole :=
  CharRole.of_type (CharType.of prev) (CharType.of cur)

/-! ## V1 per-cell base score -/

/-- `fuzzy_score` from the source: the V1 per-cell base score. -/
def fuzzy_score (choice_ch : Char) (choice_idx : Nat) (choice_prev_ch : Char)
    (pat_ch : Char) (pat_idx : Nat) (_pat_prev_ch : Char) : ScoreType :=
  let score0 := BONUS_MATCHED
  let choice_prev_ch_type := CharType.of choice_prev_ch
  let choice_role := CharRole.of choice_prev_ch choice_ch
  let score1 :=
    if pat_ch = choice_ch then
      if rust_is_uppercase pat_ch then score0 + BONUS_UPPER_MATCH
      else score0 + BONUS_CASE_MATCH
    else score0 + PENALTY_CASE_UNMATCHED
  let score2 :=
    if choice_role = .Head ∨ choice_role = .Break ∨ choice_role = .Camel then
      score1 + BONUS_CAMEL
    else score1
  let score3 :=
    if choice_prev_ch_type = .HardSep ∨ choice_prev_ch_type = .SoftSep then
      score2 + BONUS_SEPARATOR
    else score2
  if pat_idx = 0 then
    score3 + max ((choice_idx : ScoreType) * PENALTY_LEADING) PENALTY_MAX_LEADING
  else score3

/-! ## V1 sparse grid -/

/-- `MatchingStatus` from the source: one candidate cell of the sparse grid. -/
structure MatchingStatus where
  idx : IndexType
  score : ScoreType
  final_score : ScoreType
  adj_num : IndexType
  back_ref : IndexType
deriving DecidableEq, Repr

/-- `MatchingStatus::default`. -/
def MatchingStatus.init : MatchingStatus :=
  { idx := 0, score := 0, final_score := 0, adj_num := 1, back_ref := 0 }

instance : Inhabited MatchingStatus := ⟨MatchingStatus.init⟩

/-- Rust `Iterator::max_by_key`: the element with the greatest key; when
several are equally maximal, the last one. -/
def max_by_key_last {α : Type} (key : α → Int) : List α → Option α
  | [] => none
  | x :: xs => some (xs.foldl (fun acc y => if key y ≥ key acc then y else acc) x)

/-- Inner loop of V1 candidate collection (`build_graph`, phase A): scan the
choice from counter `idx` (with previous character `prevCh`) and record a
`MatchingStatus` for every ascii-case-folded occurrence of `pat_ch` at
position `≥ match_start_idx`. -/
def collect_row_aux (pat_ch : Char) (pat_idx : Nat) (pat_prev_ch : Char)
    (match_start_idx : Nat) : Nat → Char → List Char → List MatchingStatus
  | _, _, [] => []
  | idx, prevCh, ch :: rest =>
    let tail := collect_row_aux pat_ch pat_idx pat_prev_ch match_start_idx
        (idx + 1) ch rest
    if to_ascii_lowercase ch = to_ascii_lowercase pat_ch ∧ match_start_idx ≤ idx then
      let s := fuzzy_score ch idx prevCh pat_ch pat_idx pat_prev_ch
      { idx := idx, score := s, final_score := s, adj_num := 1, back_ref := 0 } :: tail
    else tail

/-- One row of V1 candidate collection, starting at the beginning of choice. -/
def collect_row (choice : List Char) (pat_ch : Char) (pat_idx : Nat)
    (pat_prev_ch : Char) (match_start_idx : Nat) : List MatchingStatus :=
  collect_row_aux pat_ch pat_idx pat_prev_ch match_start_idx 0 '\x00' choice

/-- Phase A of `build_graph`: collect candidate rows for each pattern
character, threading `match_start_idx` (first candidate's `idx + 1`) and
returning `none` as soon as a row is empty. -/
def phase_a (choice : List Char) : List Char → Nat → Char → Nat →
    Option (List (List MatchingStatus))
  | [], _, _, _ => some []
  | pat_ch :: rest, pat_idx, pat_prev_ch, match_start_idx =>
    let vec := collect_row choice pat_ch pat_idx pat_prev_ch match_start_idx
    match vec with
    | [] => none
    | first :: _ =>
      (phase_a choice rest (pat_idx + 1) pat_ch (first.idx + 1)).map
        (fun rows => vec :: rows)

/-- One cell update of V1 phase B.  `prev` is the already-updated left
neighbour in the current row (`MatchingStatus.init` when `k = 0`),
`next` the original cell, `prev_row` the already-updated previous row. -/
def step_cell (prev_row : List MatchingStatus) (k : Nat) (prev next : MatchingStatus) :
    MatchingStatus :=
  let score_before_idx :=
    prev.final_score - prev.score + next.score
      + PENALTY_UNMATCHED * ((next.idx - prev.idx : Nat) : Int)
      - (if prev.adj_num = 0 then BONUS_ADJACENCY else 0)
  let candidates :=
    (((prev_row.enum.takeWhile (fun c => c.2.idx < next.idx)).dropWhile
        (fun c => c.2.idx < prev.idx)).map
      (fun c =>
        let adj_num := next.idx - c.2.idx - 1
        let fs := c.2.final_score + next.score +
          (if adj_num = 0 then BONUS_ADJACENCY
           else PENALTY_UNMATCHED * (adj_num : Int))
        (c.1, fs, adj_num)))
  let best := (max_by_key_last (fun t => t.2.1) candidates).getD
    (prev.back_ref, score_before_idx, prev.adj_num)
  if 0 < k ∧ best.2.1 < score_before_idx then
    { next with final_score := score_before_idx, back_ref := prev.back_ref,
                adj_num := best.2.2 }
  else
    { next with final_score := best.2.1, back_ref := best.1, adj_num := best.2.2 }

/-- Sequential in-place update of one row in V1 phase B: the `prev`
accumulator is the just-updated left neighbour. -/
def step_row_aux (prev_row : List MatchingStatus) :
    Nat → MatchingStatus → List MatchingStatus → List MatchingStatus
  | _, _, [] => []
  | k, prev, next :: rest =>
    let updated := step_cell prev_row k prev next
    updated :: step_row_aux prev_row (k + 1) updated rest

/-- Update one row of V1 phase B against the previous (already updated) row. -/
def step_row (prev_row cur_row : List MatchingStatus) : List MatchingStatus :=
  step_row_aux prev_row 0 MatchingStatus.init cur_row

/-- Phase B tail: update successive rows, each against its updated predecessor. -/
def phase_b_aux : List MatchingStatus → List (List MatchingStatus) →
    List (List MatchingStatus)
  | _, [] => []
  | prev, r :: rs =>
    let nr := step_row prev r
    nr :: phase_b_aux nr rs

/-- Phase B of `build_graph`: propagate best-predecessor scores row by row. -/
def phase_b : List (List MatchingStatus) → List (List MatchingStatus)
  | [] => []
  | r0 :: rest => r0 :: phase_b_aux r0 rest

/-- `build_graph` from the source. -/
def build_graph (choice pattern : List Char) : Option (List (List MatchingStatus)) :=
  (phase_a choice pattern 0 '\x00' 0).map phase_b

/-- The argmax over the last row shared by `fuzzy_match` and `fuzzy_indices`:
Rust `last_row.iter().enumerate().max_by_key(final_score)`. -/
def last_row_best (scores : List (List MatchingStatus)) : Nat × MatchingStatus :=
  let last_row := (scores.getLast?).getD []
  (max_by_key_last (fun c => c.2.final_score) last_row.enum).getD (0, MatchingStatus.init)

/-- `fuzzy_match` (V1) from the source. -/
def fuzzy_match (choice pattern : List Char) : Option ScoreType :=
  if pattern = [] then some 0
  else (build_graph choice pattern).map (fun scores => (last_row_best scores).2.final_score)

/-- V1 traceback: walk from the last row to the first, following `back_ref`.
The argument list is the graph rows in reverse order. -/
def traceback_v1 : List (List MatchingStatus) → Nat → List IndexType
  | [], _ => []
  | row :: rest, col =>
    let status := row.getD col MatchingStatus.init
    status.idx :: traceback_v1 rest status.back_ref

/-- `fuzzy_indices` (V1) from the source. -/
def fuzzy_indices (choice pattern : List Char) : Option (ScoreType × List IndexType) :=
  if pattern = [] then some (0, [])
  else (build_graph choice pattern).map (fun scores =>
    let best := last_row_best scores
    (best.2.final_score, (traceback_v1 scores.reverse best.1).reverse))

/-! ## The `util` module (declared outside `src/`)

Modelled from the spec: the crate's `util::char_equal` and
`util::cheap_matches` are used by `skim.rs` but their source is not under
`src/`; the spec describes them in the cheap-prefilter section. -/

/-- Modelled from the spec: `util::char_equal` — equality under the active
case rule; case-insensitive mode compares ASCII-folded code points. -/
def char_equal (a b : Char) (case_sensitive : Bool) : Bool :=
  if case_sensitive then a = b
  else to_ascii_lowercase a = to_ascii_lowercase b

/-- Modelled from the spec: `util::cheap_matches` — iterate choice in order,
advancing into pattern on `char_equal`; true iff the pattern is exhausted. -/
def cheap_matches : List Char → List Char → Bool → Bool
  | _, [], _ => true
  | [], _ :: _, _ => false
  | c :: cr, p :: pr, case_sensitive =>
    if char_equal c p case_sensitive then cheap_matches cr pr case_sensitive
    else cheap_matches cr (p :: pr) case_sensitive

/-! ## V2 configuration -/

/-- `SkimScoreConfig` from the source (all fields Rust `i32`). -/
structure SkimScoreConfig where
  score_match : Int
  gap_start : Int
  gap_extension : Int
  bonus_first_char_multiplier : Int
  bonus_head : Int
  bonus_break : Int
  bonus_camel : Int
  bonus_consecutive : Int
  penalty_case_mismatch : Int
deriving DecidableEq, Repr

/-- `SkimScoreConfig::default`, with the derived bonus values. -/
def SkimScoreConfig.init : SkimScoreConfig :=
  let score_match := 16
  let gap_start := -3
  let gap_extension := -1
  { score_match := score_match
    gap_start := gap_start
    gap_extension := gap_extension
    bonus_first_char_multiplier := 2
    bonus_head := score_match / 2
    bonus_break := score_match / 2 + gap_extension
    bonus_camel := score_match / 2 + 2 * gap_extension
    bonus_consecutive := -(gap_start + gap_extension)
    penalty_case_mismatch := gap_extension * 2 }

/-- `CaseMatching` from the source. -/
inductive CaseMatching where
  | Respect
  | Ignore
  | Smart
deriving DecidableEq, Repr

/-- `Movement` from the source. -/
inductive Movement where
  | Match
  | Skip
deriving DecidableEq, Repr

/-- `MatrixCell` from the source. -/
structure MatrixCell where
  movement : Movement
  score : Int
deriving DecidableEq, Repr

/-- `MATRIX_CELL_NEG_INFINITY = i16::MIN as i32`. -/
def MATRIX_CELL_NEG_INFINITY : Int := -32768

/-- `MatrixCell::default`. -/
def MatrixCell.init : MatrixCell :=
  { movement := .Skip, score := MATRIX_CELL_NEG_INFINITY }

instance : Inhabited MatrixCell := ⟨MatrixCell.init⟩

/-- The configuration part of `SkimMatcherV2` (the per-thread caches are
threaded explicitly through `fuzzy`). -/
structure MatcherCfg where
  score_config : SkimScoreConfig
  element_limit : Nat
  case : CaseMatching
  use_cache : Bool
deriving DecidableEq, Repr

/-- `SkimMatcherV2::default` (configuration part). -/
def MatcherCfg.init : MatcherCfg :=
  { score_config := SkimScoreConfig.init
    element_limit := 0
    case := .Smart
    use_cache := true }

/-! ## V2 score matrices

A `ScoreMatrix` is a flat buffer addressed as `row * cols + col`; here the
buffer is a `List MatrixCell` and `rows`/`cols` are passed explicitly. -/

/-- `Vec::resize(n, default)`: truncate or extend with the default cell. -/
def vec_resize (v : List MatrixCell) (n : Nat) : List MatrixCell :=
  if n ≤ v.length then v.take n
  else v ++ List.replicate (n - v.length) MatrixCell.init

/-- `ScoreMatrix::get_score` / `get_movement` (flat read). -/
def mat_get (m : List MatrixCell) (cols row col : Nat) : MatrixCell :=
  m.getD (row * cols + col) MatrixCell.init

/-- `ScoreMatrix::set_score` (flat write of the score field only). -/
def mat_set_score (m : List MatrixCell) (cols row col : Nat) (s : Int) :
    List MatrixCell :=
  m.set (row * cols + col) { m.getD (row * cols + col) MatrixCell.init with score := s }

/-- `ScoreMatrix::set_movement` (flat write of the movement field only). -/
def mat_set_movement (m : List MatrixCell) (cols row col : Nat) (mv : Movement) :
    List MatrixCell :=
  m.set (row * cols + col) { m.getD (row * cols + col) MatrixCell.init with movement := mv }

/-- `ScoreMatrix::get_row`. -/
def mat_get_row (m : List MatrixCell) (cols row : Nat) : List MatrixCell :=
  (m.drop (row * cols)).take cols

/-- `SkimMatcherV2::adjust_row_idx`. -/
def adjust_row_idx (row_idx : Nat) (compressed : Bool) : Nat :=
  if compressed then row_idx % 2 else row_idx

/-- First initialization loop pair of `build_score_matrix`: write score
`s` and movement `Skip` at `(i, 0)` for `i` in `0..rows`. -/
def init_col0 (cols : Nat) (s : Int) (rows : Nat) (m : List MatrixCell) :
    List MatrixCell :=
  (List.range rows).foldl
    (fun acc i => mat_set_movement (mat_set_score acc cols i 0 s) cols i 0 .Skip) m

/-- Row-0 initialization loop of `build_score_matrix`: write score `s` and
movement `Skip` at `(0, j)` for `j` in `0..cols`. -/
def init_row0 (cols : Nat) (s : Int) (m : List MatrixCell) : List MatrixCell :=
  (List.range cols).foldl
    (fun acc j => mat_set_movement (mat_set_score acc cols 0 j s) cols 0 j .Skip) m

/-- The initialization prefix of `build_score_matrix`, in source order:
column 0 of `m`, row 0 of `m`, column 0 of `p`, then row 0 of `p` (which
overwrites `p[0][0]` with `gap_extension`). -/
def bsm_init (cfg : MatcherCfg) (rows cols : Nat) (m p : List MatrixCell) :
    List MatrixCell × List MatrixCell :=
  let m := init_col0 cols MATRIX_CELL_NEG_INFINITY rows m
  let m := init_row0 cols MATRIX_CELL_NEG_INFINITY m
  let p := init_col0 cols MATRIX_CELL_NEG_INFINITY rows p
  let p := init_row0 cols cfg.score_config.gap_extension p
  (m, p)

/-- `SkimMatcherV2::in_place_bonus`. -/
def in_place_bonus (cfg : MatcherCfg) (prev_char_type char_type : CharType) : Int :=
  match CharRole.of_type prev_char_type char_type with
  | .Head => cfg.score_config.bonus_head
  | .Camel => cfg.score_config.bonus_camel
  | .Break => cfg.score_config.bonus_break
  | .Tail => 0

/-- `SkimMatcherV2::calculate_match_score`: `None` when the characters are
not `char_equal`; otherwise the clamped sum, returned as a `u16`
(`max(0, _) as u16`, i.e. reduced mod `2^16`). -/
def calculate_match_score (cfg : MatcherCfg) (prev_ch c p : Char)
    (c_idx : Nat) (_p_idx : Nat) (case_sensitive : Bool) : Option Nat :=
  if ¬ char_equal c p case_sensitive then none
  else
    let score := cfg.score_config.score_match
    let prev_ch_type := CharType.of prev_ch
    let ch_type := CharType.of c
    let bonus0 := in_place_bonus cfg prev_ch_type ch_type
    let bonus1 := if c_idx = 0 then bonus0 * cfg.score_config.bonus_first_char_multiplier
                  else bonus0
    let bonus2 := if ¬ case_sensitive ∧ p ≠ c then
                    bonus1 + cfg.score_config.penalty_case_mismatch
                  else bonus1
    some ((max 0 (score + bonus2)).toNat % 65536)

/-- One iteration of the inner loop of `build_score_matrix`: update cell
`(i+1, j+1)` of `m` and of `p`.  Mirrors the source exactly: the pattern
counter `i` is passed as `calculate_match_score`'s `c_idx` and the choice
counter `j` as its `_p_idx` (as in `skim.rs`, despite the parameter names),
and in the match branch the movement of `m` is only written when
`prev_match_score ≥ prev_skip_score` (no `else`), leaving the previous
buffer content in place otherwise. -/
def fill_cell (cfg : MatcherCfg) (compressed case_sensitive : Bool) (cols : Nat)
    (p_ch c_ch prev_ch : Char) (i j : Nat) (st : List MatrixCell × List MatrixCell) :
    List MatrixCell × List MatrixCell :=
  let m := st.1
  let p := st.2
  let row := adjust_row_idx (i + 1) compressed
  let row_prev := adjust_row_idx i compressed
  let col := j + 1
  let col_prev := j
  let m :=
    match calculate_match_score cfg prev_ch c_ch p_ch i j case_sensitive with
    | some match_score =>
      let prev_match_score := (mat_get m cols row_prev col_prev).score
      let prev_skip_score := (mat_get p cols row_prev col_prev).score
      let m := if prev_match_score ≥ prev_skip_score then
                 mat_set_movement m cols row col .Match
               else m
      mat_set_score m cols row col
        ((match_score : Int) +
          max (prev_match_score + cfg.score_config.bonus_consecutive) prev_skip_score)
    | none =>
      mat_set_movement (mat_set_score m cols row col MATRIX_CELL_NEG_INFINITY)
        cols row col .Skip
  let prev_match_score := cfg.score_config.gap_start + cfg.score_config.gap_extension
    + (mat_get m cols row col_prev).score
  let prev_skip_score := cfg.score_config.gap_extension
    + (mat_get p cols row col_prev).score
  let p :=
    if prev_match_score ≥ prev_skip_score then
      mat_set_movement (mat_set_score p cols row col prev_match_score) cols row col .Match
    else
      mat_set_movement (mat_set_score p cols row col prev_skip_score) cols row col .Skip
  (m, p)

/-- Inner loop of `build_score_matrix` over the choice characters, with
column counter `j` and previous choice character `prev_ch`. -/
def fill_row (cfg : MatcherCfg) (compressed case_sensitive : Bool) (cols : Nat)
    (p_ch : Char) (i : Nat) :
    Nat → Char → List Char → List MatrixCell × List MatrixCell →
    List MatrixCell × List MatrixCell
  | _, _, [], st => st
  | j, prev_ch, c_ch :: rest, st =>
    fill_row cfg compressed case_sensitive cols p_ch i (j + 1) c_ch rest
      (fill_cell cfg compressed case_sensitive cols p_ch c_ch prev_ch i j st)

/-- Outer loop of `build_score_matrix` over the pattern characters. -/
def fill_all (cfg : MatcherCfg) (compressed case_sensitive : Bool) (cols : Nat)
    (choice : List Char) :
    List Char → Nat → List MatrixCell × List MatrixCell →
    List MatrixCell × List MatrixCell
  | [], _, st => st
  | p_ch :: rest, i, st =>
    fill_all cfg compressed case_sensitive cols choice rest (i + 1)
      (fill_row cfg compressed case_sensitive cols p_ch i 0 '\x00' choice st)

/-- `SkimMatcherV2::build_score_matrix`: initialization followed by the
recurrence fill. -/
def build_score_matrix (cfg : MatcherCfg) (rows cols : Nat)
    (choice pattern : List Char) (compressed case_sensitive : Bool)
    (m p : List MatrixCell) : List MatrixCell × List MatrixCell :=
  fill_all cfg compressed case_sensitive cols choice pattern 0
    (bsm_init cfg rows cols m p)

/-- `SkimMatcherV2::contains_upper`. -/
def contains_upper (s : List Char) : Bool :=
  s.any is_ascii_uppercase

/-- The effective case sensitivity of a matcher on a pattern. -/
def case_sensitive_of (cfg : MatcherCfg) (pattern : List Char) : Bool :=
  match cfg.case with
  | .Respect => true
  | .Ignore => false
  | .Smart => contains_upper pattern

/-- V2 traceback loop: `i`/`j` are the current matrix coordinates,
`mat_is_m` records which matrix the cursor is in (`ptr::eq(matrix, &m)`),
`cur_move` the movement carried from the previous step.  The collected
positions are reversed on exit. -/
def traceback_v2 (m p : List MatrixCell) (cols : Nat) :
    Nat → Nat → Bool → Movement → List IndexType → List IndexType
  | 0, _, _, _, acc => acc.reverse
  | _ + 1, 0, _, _, acc => acc.reverse
  | i + 1, j + 1, mat_is_m, cur_move, acc =>
    let acc := if cur_move = .Match then acc ++ [j] else acc
    let mv := (if mat_is_m then mat_get m cols (i + 1) (j + 1)
               else mat_get p cols (i + 1) (j + 1)).movement
    let i' := if mat_is_m then i else i + 1
    traceback_v2 m p cols i' j (mv = .Match) mv acc

/-- Forward pass of `simple_match`: greedily consume pattern characters,
recording the byte index of the first match (`o_start_byte`) and the number
of unconsumed choice characters before it (`start_chars`).  Returns the
leftover pattern, `o_start_byte`, `start_chars`, and the rest of the
choice `char_indices` iterator. -/
def simple_fwd (case_sensitive : Bool) :
    List (Nat × Char) → List Char → Option Nat → Nat →
    List Char × Option Nat × Nat × List (Nat × Char)
  | cis, [], osb, sc => ([], osb, sc, cis)
  | [], ps, osb, sc => (ps, osb, sc, [])
  | (byte_idx, c) :: cr, pa :: pr, osb, sc =>
    let step :=
      if char_equal c pa case_sensitive then
        (pr, (match osb with | some b => some b | none => some byte_idx))
      else (pa :: pr, osb)
    let osb' := step.2
    let sc' := if osb' = none then sc + 1 else sc
    simple_fwd case_sensitive cr step.1 osb' sc'

/-- Backward pass of `simple_match`: walk the window right-to-left consuming
the reversed pattern; `o_nearest_start_byte` ends at the byte offset (within
the window) of the first pattern character's match. -/
def simple_bwd (case_sensitive : Bool) :
    List (Nat × Char) → List Char → Option Nat → Option Nat
  | _, [], onsb => onsb
  | [], _ :: _, onsb => onsb
  | (idx, c) :: cr, pa :: pr, onsb =>
    if char_equal c pa case_sensitive then
      simple_bwd case_sensitive cr pr (some idx)
    else
      simple_bwd case_sensitive cr (pa :: pr) onsb

/-- Rust `str::char_indices` over a `List Char`: pair every character with
its UTF-8 byte offset. -/
def char_indices_aux : Nat → List Char → List (Nat × Char)
  | _, [] => []
  | b, c :: cs => (b, c) :: char_indices_aux (b + c.utf8Size) cs

def char_indices (s : List Char) : List (Nat × Char) :=
  char_indices_aux 0 s

/-- Rust `str::len`: total UTF-8 byte length. -/
def utf8_len (s : List Char) : Nat :=
  (s.map Char.utf8Size).sum

/-- Rust slice `choice[a..b]` by byte offsets (the source only slices at
character boundaries). -/
def byte_slice (s : List Char) (a b : Nat) : List Char :=
  ((char_indices s).filter (fun x => a ≤ x.1 ∧ x.1 < b)).map Prod.snd

/-- Scoring loop of `SkimMatcherV2::calculate_score_with_pos`. -/
def score_with_pos_loop (cfg : MatcherCfg) (case_sensitive with_pos : Bool)
    (start_chars : Nat) :
    List (Nat × Char) → List (Nat × Char) → Char → Int → Bool → Int →
    List IndexType → Int × List IndexType
  | _, [], _, score, _, _, pos => (score, pos.reverse)
  | [], _ :: _, _, score, _, _, pos => (score, pos.reverse)
  | (p_idx, pa) :: pr, (c_idx, c) :: cr, prev_ch, score, in_gap, consecutive, pos =>
    match calculate_match_score cfg prev_ch c pa (c_idx + start_chars) p_idx
        case_sensitive with
    | some match_score =>
      let pos := if with_pos then ((c_idx + start_chars : Nat) : IndexType) :: pos else pos
      let score := score + (match_score : Int)
        + consecutive * cfg.score_config.bonus_consecutive
      score_with_pos_loop cfg case_sensitive with_pos start_chars pr cr c score
        false (consecutive + 1) pos
    | none =>
      let score := (if ¬ in_gap then score + cfg.score_config.gap_start else score)
        + cfg.score_config.gap_extension
      score_with_pos_loop cfg case_sensitive with_pos start_chars ((p_idx, pa) :: pr) cr c
        score true 0 pos

/-- `SkimMatcherV2::calculate_score_with_pos`. -/
def calculate_score_with_pos (cfg : MatcherCfg) (choice pattern : List Char)
    (start_bytes end_bytes start_chars : Nat) (case_sensitive with_pos : Bool) :
    ScoreType × List IndexType :=
  let window := (byte_slice choice start_bytes end_bytes).enum
  score_with_pos_loop cfg case_sensitive with_pos start_chars
    pattern.enum window '\x00' 0 false 0 []

/-- `SkimMatcherV2::simple_match`. -/
def simple_match (cfg : MatcherCfg) (choice pattern : List Char)
    (case_sensitive with_pos : Bool) : Option (ScoreType × List IndexType) :=
  let fwd := simple_fwd case_sensitive (char_indices choice) pattern none 0
  if fwd.1 ≠ [] then none
  else
    let start_byte := fwd.2.1.getD 0
    let start_chars := fwd.2.2.1
    let end_byte := (fwd.2.2.2.head?.map Prod.fst).getD (utf8_len choice)
    let onsb := simple_bwd case_sensitive
      (char_indices (byte_slice choice start_byte end_byte)).reverse
      pattern.reverse none
    let start_byte := start_byte + onsb.getD 0
    some (calculate_score_with_pos cfg choice pattern start_byte end_byte start_chars
      case_sensitive with_pos)

/-- `SkimMatcherV2::fuzzy`, with the two per-thread scratch buffers
(`m_cache`, `p_cache`) threaded as explicit state.  Returns the result
together with the buffers as left at the end of the call. -/
def fuzzy (cfg : MatcherCfg) (m_cache p_cache : List MatrixCell)
    (choice pattern : List Char) (with_pos : Bool) :
    Option (ScoreType × List IndexType) × (List MatrixCell × List MatrixCell) :=
  if pattern = [] then (some (0, []), (m_cache, p_cache))
  else
    let case_sensitive := case_sensitive_of cfg pattern
    let compressed := ¬ with_pos
    if ¬ cheap_matches choice pattern case_sensitive then
      (none, (m_cache, p_cache))
    else
      let cols := choice.length + 1
      let num_char_pattern := pattern.length
      let rows := if compressed then 2 else num_char_pattern + 1
      if 0 < cfg.element_limit ∧ cfg.element_limit < rows * cols then
        (simple_match cfg choice pattern case_sensitive with_pos, (m_cache, p_cache))
      else
        let m0 := vec_resize m_cache (rows * cols)
        let p0 := vec_resize p_cache (rows * cols)
        let mp := build_score_matrix cfg rows cols choice pattern compressed
          case_sensitive m0 p0
        let m := mp.1
        let p := mp.2
        let last_row := mat_get_row m cols (adjust_row_idx num_char_pattern compressed)
        let best := (max_by_key_last (fun c => c.2.score) last_row.enum).getD
          (0, MatrixCell.init)
        let positions :=
          if with_pos then traceback_v2 m p cols (rows - 1) best.1 true .Match []
          else []
        let caches := if ¬ cfg.use_cache then ([], []) else (m, p)
        (some (best.2.score, positions), caches)

/-- `SkimMatcherV2::fuzzy_indices` (fresh per-thread state). -/
def fuzzy_indices_v2 (cfg : MatcherCfg) (choice pattern : List Char) :
    Option (ScoreType × List IndexType) :=
  (fuzzy cfg [] [] choice pattern true).1

/-- `SkimMatcherV2::fuzzy_match` (fresh per-thread state). -/
def fuzzy_match_v2 (cfg : MatcherCfg) (choice pattern : List Char) : Option ScoreType :=
  ((fuzzy cfg [] [] choice pattern false).1).map Prod.fst

/-! ## Spec-side definitions used to state the claims -/

/-- The V1 per-cell base score exactly as claim C6 words it: `BONUS_UPPER_MATCH`
is gated on the pattern character being an *ASCII* upper. -/
def fuzzy_score_claimC6 (choice_ch : Char) (choice_idx : Nat)
    (choice_prev_ch pat_ch : Char) (pat_idx : Nat) : ScoreType :=
  4 + (if pat_ch = choice_ch then (if is_ascii_uppercase pat_ch then 6 else 4) else -1)
    + (if CharRole.of choice_prev_ch choice_ch = .Head ∨
          CharRole.of choice_prev_ch choice_ch = .Break ∨
          CharRole.of choice_prev_ch choice_ch = .Camel then 8 else 0)
    + (if CharType.of choice_prev_ch = .HardSep ∨
          CharType.of choice_prev_ch = .SoftSep then 8 else 0)
    + (if pat_idx = 0 then max ((choice_idx : Int) * (-6)) (-18) else 0)

/-- An in-order case-policy match of `pattern` inside `choice`: some sublist of
the choice is pointwise `char_equal` to the pattern. -/
def ExistsMatch (case_sensitive : Bool) (pattern choice : List Char) : Prop :=
  ∃ l, l.Sublist choice ∧ List.Forall₂ (fun c p => char_equal c p case_sensitive = true) l pattern

/-- Concrete input exhibiting the M-movement discrepancy of claim C1:
`"a"` + 9 × `"x"` + `"ab"`. -/
def c1_choice : List Char := "axxxxxxxxxab".toList

def c1_pattern : List Char := "ab".toList

/-- The matrices V2 builds (full mode, case-insensitive) on `c1_choice`. -/
def c1_matrices : List MatrixCell × List MatrixCell :=
  build_score_matrix MatcherCfg.init 3 13 c1_choice c1_pattern false false
    (vec_resize [] (3 * 13)) (vec_resize [] (3 * 13))

/-- A V2 configuration (in the scope of claim C8, which quantifies over the
score config) that makes genuine gaps expensive: default except
`gap_start = -100`. -/
def c8_cfg : MatcherCfg :=
  { MatcherCfg.init with
    score_config := { SkimScoreConfig.init with gap_start := -100 } }

/-- Concrete input on which row compression changes the V2 score under
`c8_cfg`: choice `"abab"` against pattern `"aab"`. -/
def c8_choice : List Char := "abab".toList

def c8_pattern : List Char := "aab".toList

/-- Call sequence exhibiting the cache-staleness of claim C9: `fuzzy_indices`
on `"aab"`/`"ab"` on a fresh thread. -/
def c9_first : Option (ScoreType × List IndexType) × (List MatrixCell × List MatrixCell) :=
  fuzzy MatcherCfg.init [] [] "aab".toList "ab".toList true

/-- The same thread then matches `"xab"`/`"ab"`, reusing the scratch buffers. -/
def c9_second : Option (ScoreType × List IndexType) × (List MatrixCell × List MatrixCell) :=
  fuzzy MatcherCfg.init c9_first.2.1 c9_first.2.2 "xab".toList "ab".toList true

/-- The same thread repeats the first call verbatim. -/
def c9_third : Option (ScoreType × List IndexType) × (List MatrixCell × List MatrixCell) :=
  fuzzy MatcherCfg.init c9_second.2.1 c9_second.2.2 "aab".toList "ab".toList true

/-- Concrete input exhibiting the index-fidelity failure of claim C2:
`"a"` + 32813 × `"x"` + `"b"`, long enough that the valid alignment's score
drifts below the `NEG_INFINITY` sentinel of the affine-gap matrices. -/
def c2_choice : List Char := 'a' :: (List.replicate 32813 'x' ++ ['b'])

def c2_pattern : List Char := "ab".toList

/-- The matrices V2 builds (full mode, case-insensitive, fresh buffers) on
`c2_choice` against `c2_pattern`. -/
def c2_state : List MatrixCell × List MatrixCell :=
  build_score_matrix MatcherCfg.init (c2_pattern.length + 1) (c2_choice.length + 1)
    c2_choice c2_pattern false false
    (vec_resize [] ((c2_pattern.length + 1) * (c2_choice.length + 1)))
    (vec_resize [] ((c2_pattern.length + 1) * (c2_choice.length + 1)))

/-- The recurrence equations claim C1 asserts of one interior cell `(i+1, j+1)`
of the filled matrices `st = (M, P)`, with the movement rule as the source
implements it: `Match` on `M` iff `M[i][j] ≥ P[i][j]` (compared without
`bonus_consecutive`), and `else_mv` — the buffer's prior content — otherwise. -/
def CellEqs (cfg : MatcherCfg) (case_sensitive : Bool) (cols : Nat)
    (st : List MatrixCell × List MatrixCell) (p_ch c_ch prev_ch : Char)
    (i j : Nat) (else_mv : Movement) : Prop :=
  (∀ ms, calculate_match_score cfg prev_ch c_ch p_ch i j case_sensitive = some ms →
    (mat_get st.1 cols (i + 1) (j + 1)).score =
      (ms : Int) + max ((mat_get st.1 cols i j).score + cfg.score_config.bonus_consecutive)
        ((mat_get st.2 cols i j).score) ∧
    (mat_get st.1 cols (i + 1) (j + 1)).movement =
      (if (mat_get st.1 cols i j).score ≥ (mat_get st.2 cols i j).score then Movement.Match
       else else_mv)) ∧
  (calculate_match_score cfg prev_ch c_ch p_ch i j case_sensitive = none →
    mat_get st.1 cols (i + 1) (j + 1) = MatrixCell.init) ∧
  ((mat_get st.2 cols (i + 1) (j + 1)).score =
    max (cfg.score_config.gap_start + cfg.score_config.gap_extension +
          (mat_get st.1 cols (i + 1) j).score)
        (cfg.score_config.gap_extension + (mat_get st.2 cols (i + 1) j).score)) ∧
  ((mat_get st.2 cols (i + 1) (j + 1)).movement =
    (if cfg.score_config.gap_start + cfg.score_config.gap_extension +
          (mat_get st.1 cols (i + 1) j).score ≥
        cfg.score_config.gap_extension + (mat_get st.2 cols (i + 1) j).score
     then Movement.Match else Movement.Skip))

end Skim

namespace Skim

/-! ## Helper lemmas about flat-buffer reads and writes -/

theorem getD_set_self {α : Type} (l : List α) (i : Nat) (x d : α) (h : i < l.length) :
    (l.set i x).getD i d = x := by
  simp [List.getD, List.getElem?_set_self, h]

theorem getD_set_ne {α : Type} (l : List α) (i j : Nat) (x d : α) (h : i ≠ j) :
    (l.set i x).getD j d = l.getD j d := by
  simp [List.getD, List.getElem?_set_ne, h]

theorem flat_index_inj {r1 c1 r2 c2 cols : Nat} (h1 : c1 < cols) (h2 : c2 < cols)
    (h : r1 * cols + c1 = r2 * cols + c2) : r1 = r2 ∧ c1 = c2 := by
  have hr : r1 = r2 := by
    rcases Nat.lt_trichotomy r1 r2 with hlt | heq | hgt
    · exfalso
      have : r1 * cols + cols ≤ r2 * cols := by
        calc r1 * cols + cols = (r1 + 1) * cols := by ring
        _ ≤ r2 * cols := Nat.mul_le_mul_right cols hlt
      omega
    · exact heq
    · exfalso
      have : r2 * cols + cols ≤ r1 * cols := by
        calc r2 * cols + cols = (r2 + 1) * cols := by ring
        _ ≤ r1 * cols := Nat.mul_le_mul_right cols hgt
      omega
  refine ⟨hr, ?_⟩
  subst hr
  omega

/-! ## Claim theorems -/

/-- Claim C10: for every choice and pattern, V1's `fuzzy_match` returns
`some s` exactly when V1's `fuzzy_indices` returns `some (s, _)` with the
same score `s` (both take the argmax of `final_score` over the last row of
the same graph), and both return `none` together. -/
theorem claim_C10 (choice pattern : List Char) :
    fuzzy_match choice pattern = (fuzzy_indices choice pattern).map Prod.fst := by
  unfold fuzzy_match fuzzy_indices
  by_cases h : pattern = []
  · simp [h]
  · simp only [h, if_false]
    cases hb : build_graph choice pattern <;> simp [hb]

/-- Claim C5: V2's per-cell match score, for inputs that match under the case
policy, equals `score_match (=16)` plus the role bonus
(Head→8, Camel→6, Break→7, Tail→0 under the default configuration),
the role bonus doubled when `c_idx = 0`, plus `penalty_case_mismatch (=-2)`
when case-insensitive mode is active and the characters differ literally,
the sum clamped to `≥ 0`; and it is `none` when the characters are not
equal under the case policy. -/
theorem claim_C5 (prev_ch c p : Char) (c_idx p_idx : Nat) (case_sensitive : Bool) :
    (char_equal c p case_sensitive = true →
      calculate_match_score MatcherCfg.init prev_ch c p c_idx p_idx case_sensitive =
        some ((max 0 (16 +
          (if c_idx = 0 then 2 else 1) *
            (if CharRole.of prev_ch c = CharRole.Head then 8
             else if CharRole.of prev_ch c = CharRole.Camel then 6
             else if CharRole.of prev_ch c = CharRole.Break then 7 else 0) +
          (if ¬ case_sensitive ∧ p ≠ c then -2 else 0))).toNat))
    ∧ (char_equal c p case_sensitive = false →
      calculate_match_score MatcherCfg.init prev_ch c p c_idx p_idx case_sensitive = none) := by
  constructor
  · intro h
    cases hrole : CharRole.of_type (CharType.of prev_ch) (CharType.of c) <;>
      simp only [calculate_match_score, in_place_bonus, CharRole.of, hrole, h,
        MatcherCfg.init, SkimScoreConfig.init, not_true, if_false, ite_false,
        reduceCtorEq, if_true] <;>
      split_ifs <;> decide
  · intro h
    unfold calculate_match_score
    rw [if_pos (by simp [h])]

/-- Witness for C5 at `prev = '\0'`, `c = p = 'a'`, `c_idx = 0`,
case-insensitive: head role doubled gives `16 + 16 = 32`; and `'a'` vs `'b'`
is no match. -/
theorem claim_C5_witness :
    calculate_match_score MatcherCfg.init '\x00' 'a' 'a' 0 0 false = some 32 ∧
    calculate_match_score MatcherCfg.init '\x00' 'a' 'b' 0 0 false = none := by
  constructor
  · have h := (claim_C5 '\x00' 'a' 'a' 0 0 false).1 (by decide)
    rw [h]; decide
  · exact (claim_C5 '\x00' 'a' 'b' 0 0 false).2 (by decide)

/-- Counterexample to C6 as stated: on the non-ASCII uppercase letter `Ä`
(an exact match of pattern and choice character, reachable since ASCII
folding is the identity on it), the source awards `BONUS_UPPER_MATCH` via
Unicode `char::is_uppercase`, giving `4 + 6 + 8 = 18`, while the claim's
ASCII-upper reading gives `4 + 4 + 8 = 16`. -/
theorem claim_C6_counterexample :
    to_ascii_lowercase 'Ä' = to_ascii_lowercase 'Ä' ∧
    fuzzy_score 'Ä' 0 '\x00' 'Ä' 0 '\x00' = 18 ∧
    fuzzy_score_claimC6 'Ä' 0 '\x00' 'Ä' 0 = 16 ∧
    fuzzy_score 'Ä' 0 '\x00' 'Ä' 0 '\x00' ≠ fuzzy_score_claimC6 'Ä' 0 '\x00' 'Ä' 0 := by
  refine ⟨rfl, by decide, by decide, by decide⟩

/-- Claim C6 (amended): the V1 per-cell base score equals `4` plus
`6` if the pattern character is *Unicode* uppercase (`char::is_uppercase`)
and matches exactly, `4` for any other exact match, `-1` for a case-only
difference, plus `8` for a Head/Break/Camel role, plus `8` after a hard or
soft separator, plus — only for the first pattern character —
`max(choice_idx * (-6), -18)`. -/
theorem claim_C6 (choice_ch : Char) (choice_idx : Nat) (choice_prev_ch pat_ch : Char)
    (pat_idx : Nat) (pat_prev_ch : Char)
    (h : to_ascii_lowercase choice_ch = to_ascii_lowercase pat_ch) :
    fuzzy_score choice_ch choice_idx choice_prev_ch pat_ch pat_idx pat_prev_ch =
      4 + (if pat_ch = choice_ch then (if rust_is_uppercase pat_ch then 6 else 4) else -1)
        + (if CharRole.of choice_prev_ch choice_ch = CharRole.Head ∨
              CharRole.of choice_prev_ch choice_ch = CharRole.Break ∨
              CharRole.of choice_prev_ch choice_ch = CharRole.Camel then 8 else 0)
        + (if CharType.of choice_prev_ch = CharType.HardSep ∨
              CharType.of choice_prev_ch = CharType.SoftSep then 8 else 0)
        + (if pat_idx = 0 then max ((choice_idx : Int) * (-6)) (-18) else 0) := by
  simp only [fuzzy_score, BONUS_MATCHED, BONUS_UPPER_MATCH, BONUS_CASE_MATCH,
    BONUS_CAMEL, BONUS_SEPARATOR, PENALTY_CASE_UNMATCHED, PENALTY_LEADING,
    PENALTY_MAX_LEADING]
  split_ifs <;> ring

/-- Witness for C6 at `choice = pattern = "a"`-style cell: head-role lowercase
exact match at index 0 scores `4 + 4 + 8 + 0 = 16`. -/
theorem claim_C6_witness :
    to_ascii_lowercase 'a' = to_ascii_lowercase 'a' ∧
    fuzzy_score 'a' 0 '\x00' 'a' 0 '\x00' = 16 := by
  refine ⟨rfl, ?_⟩
  rw [claim_C6 'a' 0 '\x00' 'a' 0 '\x00' rfl]
  decide

/-! ### Write/read lemmas for the V2 flat matrices -/

theorem mat_set_score_length (m : List MatrixCell) (cols r c : Nat) (s : Int) :
    (mat_set_score m cols r c s).length = m.length := by
  unfold mat_set_score; exact List.length_set m _ _

theorem mat_set_movement_length (m : List MatrixCell) (cols r c : Nat) (mv : Movement) :
    (mat_set_movement m cols r c mv).length = m.length := by
  unfold mat_set_movement; exact List.length_set m _ _

/-- Writing score then movement at a cell stores exactly that cell. -/
theorem set_cell_getD_self (m : List MatrixCell) (cols r c : Nat) (s : Int)
    (mv : Movement) (h : r * cols + c < m.length) :
    (mat_set_movement (mat_set_score m cols r c s) cols r c mv).getD (r * cols + c)
      MatrixCell.init = { movement := mv, score := s } := by
  unfold mat_set_movement mat_set_score
  rw [getD_set_self _ _ _ _ (by simpa using h),
      getD_set_self _ _ _ _ (by simpa using h)]

/-- Writing score then movement at a cell leaves all other positions alone. -/
theorem set_cell_getD_ne (m : List MatrixCell) (cols r c q : Nat) (s : Int)
    (mv : Movement) (h : r * cols + c ≠ q) :
    (mat_set_movement (mat_set_score m cols r c s) cols r c mv).getD q
      MatrixCell.init = m.getD q MatrixCell.init := by
  unfold mat_set_movement mat_set_score
  rw [getD_set_ne _ _ _ _ _ h, getD_set_ne _ _ _ _ _ h]

theorem vec_resize_length (v : List MatrixCell) (n : Nat) :
    (vec_resize v n).length = n := by
  unfold vec_resize
  split <;> simp <;> omega

/-! ### Initialization closed form (claim C4) -/

theorem init_col0_succ (cols : Nat) (s : Int) (n : Nat) (m : List MatrixCell) :
    init_col0 cols s (n + 1) m =
      mat_set_movement (mat_set_score (init_col0 cols s n m) cols n 0 s) cols n 0 .Skip := by
  unfold init_col0
  rw [List.range_succ, List.foldl_append]
  rfl

theorem init_col0_length (cols : Nat) (s : Int) (n : Nat) (m : List MatrixCell) :
    (init_col0 cols s n m).length = m.length := by
  induction n with
  | zero => rfl
  | succ k ih =>
    rw [init_col0_succ, mat_set_movement_length, mat_set_score_length, ih]

theorem init_col0_getD_hit (cols : Nat) (s : Int) (n : Nat) (m : List MatrixCell)
    (i : Nat) (hcols : 0 < cols) (hi : i < n) (hq : i * cols < m.length) :
    (init_col0 cols s n m).getD (i * cols) MatrixCell.init =
      { movement := .Skip, score := s } := by
  induction n with
  | zero => omega
  | succ k ih =>
    rw [init_col0_succ]
    by_cases hik : i = k
    · subst hik
      have : i * cols + 0 < (init_col0 cols s i m).length := by
        rw [init_col0_length]; omega
      simpa using set_cell_getD_self _ cols i 0 s .Skip this
    · have hik' : i < k := by omega
      have hne : k * cols + 0 ≠ i * cols := by
        intro hcontra
        rcases flat_index_inj hcols hcols (by simpa using hcontra) with ⟨h1, -⟩
        omega
      rw [set_cell_getD_ne _ _ _ _ _ _ _ hne, ih hik']

theorem init_col0_getD_miss (cols : Nat) (s : Int) (n : Nat) (m : List MatrixCell)
    (q : Nat) (h : ∀ i, i < n → q ≠ i * cols) :
    (init_col0 cols s n m).getD q MatrixCell.init = m.getD q MatrixCell.init := by
  induction n with
  | zero => rfl
  | succ k ih =>
    rw [init_col0_succ]
    have hne : k * cols + 0 ≠ q := by
      have := h k (by omega)
      omega
    rw [set_cell_getD_ne _ _ _ _ _ _ _ hne]
    exact ih (fun i hi => h i (by omega))

/-- The row-0 initialization fold preserves the buffer length (stated for an
arbitrary index list). -/
theorem init_row0_fold_length (cols : Nat) (s : Int) (l : List Nat) (m : List MatrixCell) :
    (l.foldl
      (fun acc j => mat_set_movement (mat_set_score acc cols 0 j s) cols 0 j .Skip) m).length
      = m.length := by
  induction l generalizing m with
  | nil => rfl
  | cons a t ihl =>
    simp only [List.foldl_cons]
    rw [ihl, mat_set_movement_length, mat_set_score_length]

/-- Generalized row-0 write over the segment `List.range n`. -/
theorem init_row0_aux_getD_hit (cols : Nat) (s : Int) (n : Nat) (m : List MatrixCell)
    (j : Nat) (hj : j < n) (hq : j < m.length) :
    ((List.range n).foldl
      (fun acc j => mat_set_movement (mat_set_score acc cols 0 j s) cols 0 j .Skip) m).getD
        j MatrixCell.init = { movement := .Skip, score := s } := by
  induction n with
  | zero => omega
  | succ k ih =>
    rw [List.range_succ, List.foldl_append]
    by_cases hjk : j = k
    · subst hjk
      have hl : 0 * cols + j < ((List.range j).foldl
          (fun acc j => mat_set_movement (mat_set_score acc cols 0 j s) cols 0 j .Skip)
          m).length := by
        rw [init_row0_fold_length]; omega
      simpa using set_cell_getD_self _ cols 0 j s .Skip hl
    · have hne : 0 * cols + k ≠ j := by omega
      simp only [List.foldl_cons, List.foldl_nil]
      rw [set_cell_getD_ne _ _ _ _ _ _ _ hne]
      exact ih (by omega)

theorem init_row0_aux_getD_miss (cols : Nat) (s : Int) (n : Nat) (m : List MatrixCell)
    (q : Nat) (h : ∀ j, j < n → q ≠ j) :
    ((List.range n).foldl
      (fun acc j => mat_set_movement (mat_set_score acc cols 0 j s) cols 0 j .Skip) m).getD
        q MatrixCell.init = m.getD q MatrixCell.init := by
  induction n with
  | zero => rfl
  | succ k ih =>
    rw [List.range_succ, List.foldl_append]
    have hne : 0 * cols + k ≠ q := by
      have := h k (by omega)
      omega
    simp only [List.foldl_cons, List.foldl_nil]
    rw [set_cell_getD_ne _ _ _ _ _ _ _ hne]
    exact ih (fun j hj => h j (by omega))

theorem init_row0_getD_hit (cols : Nat) (s : Int) (m : List MatrixCell)
    (j : Nat) (hj : j < cols) (hq : j < m.length) :
    (init_row0 cols s m).getD j MatrixCell.init = { movement := .Skip, score := s } :=
  init_row0_aux_getD_hit cols s cols m j hj hq

theorem init_row0_getD_miss (cols : Nat) (s : Int) (m : List MatrixCell)
    (q : Nat) (h : cols ≤ q) :
    (init_row0 cols s m).getD q MatrixCell.init = m.getD q MatrixCell.init :=
  init_row0_aux_getD_miss cols s cols m q (fun j hjc => by omega)

theorem init_row0_length (cols : Nat) (s : Int) (m : List MatrixCell) :
    (init_row0 cols s m).length = m.length :=
  init_row0_fold_length cols s (List.range cols) m

/-- Counterexample to C4 as stated: after initialization (default
configuration, any matrix shape, here 2 × 2 on fresh buffers), `P[0][0]`
holds `gap_extension = -1`, not `NEG_INFINITY` — the row-0 loop of `P` runs
after the column-0 loop and overwrites the corner. -/
theorem claim_C4_counterexample :
    (mat_get (bsm_init MatcherCfg.init 2 2 (vec_resize [] 4) (vec_resize [] 4)).2
      2 0 0).score ≠ MATRIX_CELL_NEG_INFINITY := by
  decide

/-- Closed form of the initialization: column 0 of `M` (every row), row 0
of `M`, and column 0 of `P` at rows `≥ 1` hold `NEG_INFINITY` with movement
`Skip`; row 0 of `P` (including the corner, overwritten last) holds
`gap_extension`. -/
theorem bsm_init_cells (cfg : MatcherCfg) (rows cols : Nat) (mc pc : List MatrixCell)
    (i j : Nat) (hi : i < rows) (hj : j < cols) :
    mat_get (bsm_init cfg rows cols (vec_resize mc (rows * cols))
        (vec_resize pc (rows * cols))).1 cols i 0 =
      { movement := .Skip, score := MATRIX_CELL_NEG_INFINITY } ∧
    mat_get (bsm_init cfg rows cols (vec_resize mc (rows * cols))
        (vec_resize pc (rows * cols))).1 cols 0 j =
      { movement := .Skip, score := MATRIX_CELL_NEG_INFINITY } ∧
    (0 < i → mat_get (bsm_init cfg rows cols (vec_resize mc (rows * cols))
        (vec_resize pc (rows * cols))).2 cols i 0 =
      { movement := .Skip, score := MATRIX_CELL_NEG_INFINITY }) ∧
    mat_get (bsm_init cfg rows cols (vec_resize mc (rows * cols))
        (vec_resize pc (rows * cols))).2 cols 0 j =
      { movement := .Skip, score := cfg.score_config.gap_extension } := by
  have hcols : 0 < cols := by omega
  have hrows : 0 < rows := by omega
  have hmlen : (vec_resize mc (rows * cols)).length = rows * cols := vec_resize_length _ _
  have hplen : (vec_resize pc (rows * cols)).length = rows * cols := vec_resize_length _ _
  have hcollen : ∀ v : List MatrixCell, v.length = rows * cols →
      (init_col0 cols MATRIX_CELL_NEG_INFINITY rows v).length = rows * cols := by
    intro v hv
    rw [init_col0_length, hv]
  have hcle : cols ≤ rows * cols := by
    have h1 : 1 * cols ≤ rows * cols := Nat.mul_le_mul_right cols hrows
    omega
  have hicol : i * cols < rows * cols := by
    have h1 : (i + 1) * cols ≤ rows * cols := Nat.mul_le_mul_right cols (by omega)
    have h2 : (i + 1) * cols = i * cols + cols := by ring
    omega
  have hige : 0 < i → cols ≤ i * cols := by
    intro hipos
    have h1 : 1 * cols ≤ i * cols := Nat.mul_le_mul_right cols hipos
    omega
  refine ⟨?_, ?_, ?_, ?_⟩
  · -- column 0 of M
    unfold bsm_init mat_get
    simp only
    rw [show i * cols + 0 = i * cols from rfl]
    by_cases hi0 : i = 0
    · subst hi0
      rw [Nat.zero_mul]
      exact init_row0_getD_hit cols MATRIX_CELL_NEG_INFINITY _ 0 hcols
        (by rw [hcollen _ hmlen]; omega)
    · rw [init_row0_getD_miss _ _ _ _ (hige (by omega))]
      exact init_col0_getD_hit cols _ rows _ i hcols hi (by rw [hmlen]; exact hicol)
  · -- row 0 of M
    unfold bsm_init mat_get
    simp only
    rw [show 0 * cols + j = j from by omega]
    exact init_row0_getD_hit cols _ _ j hj (by rw [hcollen _ hmlen]; omega)
  · -- column 0 of P, rows ≥ 1
    intro hipos
    unfold bsm_init mat_get
    simp only
    rw [show i * cols + 0 = i * cols from rfl]
    rw [init_row0_getD_miss _ _ _ _ (hige hipos)]
    exact init_col0_getD_hit cols _ rows _ i hcols hi (by rw [hplen]; exact hicol)
  · -- row 0 of P
    unfold bsm_init mat_get
    simp only
    rw [show 0 * cols + j = j from by omega]
    exact init_row0_getD_hit cols _ _ j hj (by rw [hcollen _ hplen]; omega)

/-- Claim C4 (amended): after V2's matrix initialization, column 0 of `M`
(every row), row 0 of `M` (every column), and column 0 of `P` at every row
*except row 0* hold `NEG_INFINITY` with movement `Skip`; row 0 of `P` —
including the corner `P[0][0]`, which the row-0 loop overwrites last —
holds `gap_extension` with movement `Skip` at every column. -/
theorem claim_C4 (cfg : MatcherCfg) (rows cols : Nat) (mc pc : List MatrixCell)
    (i j : Nat) (hi : i < rows) (hj : j < cols) :
    mat_get (bsm_init cfg rows cols (vec_resize mc (rows * cols))
        (vec_resize pc (rows * cols))).1 cols i 0 =
      { movement := .Skip, score := MATRIX_CELL_NEG_INFINITY } ∧
    mat_get (bsm_init cfg rows cols (vec_resize mc (rows * cols))
        (vec_resize pc (rows * cols))).1 cols 0 j =
      { movement := .Skip, score := MATRIX_CELL_NEG_INFINITY } ∧
    (0 < i → mat_get (bsm_init cfg rows cols (vec_resize mc (rows * cols))
        (vec_resize pc (rows * cols))).2 cols i 0 =
      { movement := .Skip, score := MATRIX_CELL_NEG_INFINITY }) ∧
    mat_get (bsm_init cfg rows cols (vec_resize mc (rows * cols))
        (vec_resize pc (rows * cols))).2 cols 0 j =
      { movement := .Skip, score := cfg.score_config.gap_extension } :=
  bsm_init_cells cfg rows cols mc pc i j hi hj

/-- Witness for C4 at `rows = cols = 2`, fresh buffers, cell `(1, 1)`. -/
theorem claim_C4_witness :
    (1 < 2 ∧
      mat_get (bsm_init MatcherCfg.init 2 2 (vec_resize [] 4) (vec_resize [] 4)).2
        2 1 0 = { movement := .Skip, score := MATRIX_CELL_NEG_INFINITY }) ∧
    mat_get (bsm_init MatcherCfg.init 2 2 (vec_resize [] 4) (vec_resize [] 4)).2
        2 0 1 = { movement := .Skip, score := MatcherCfg.init.score_config.gap_extension } := by
  have h := claim_C4 MatcherCfg.init 2 2 [] [] 1 1 (by decide) (by decide)
  exact ⟨⟨by decide, h.2.2.1 (by decide)⟩, h.2.2.2⟩

set_option maxRecDepth 100000 in
/-- Counterexample to C1 as stated: on `c1_choice = "axxxxxxxxxab"` and
`c1_pattern = "ab"` (default configuration), at cell `(i, j) = (2, 12)` the
characters match, the first term of the max wins
(`M[1][11] + bonus_consecutive = 19 > 18 = P[1][11]`), yet the stored
movement is `Skip`: the source compares `M[1][11] ≥ P[1][11]` without the
`bonus_consecutive` term. -/
theorem claim_C1_counterexample :
    (calculate_match_score MatcherCfg.init 'a' 'b' 'b' 1 11 false).isSome = true ∧
    (mat_get c1_matrices.1 13 1 11).score + MatcherCfg.init.score_config.bonus_consecutive >
      (mat_get c1_matrices.2 13 1 11).score ∧
    (mat_get c1_matrices.1 13 2 12).score =
      ((calculate_match_score MatcherCfg.init 'a' 'b' 'b' 1 11 false).getD 0 : Int) +
        max ((mat_get c1_matrices.1 13 1 11).score +
              MatcherCfg.init.score_config.bonus_consecutive)
            ((mat_get c1_matrices.2 13 1 11).score) ∧
    (mat_get c1_matrices.1 13 2 12).movement = Movement.Skip := by
  refine ⟨by decide, by decide, by decide, by decide⟩

set_option maxRecDepth 100000 in
/-- Claim C8: the V2 score with `with_pos = false` (compressed two-row
matrices) differs from the score with `with_pos = true` (full matrices) on
`c8_choice = "abab"` against `c8_pattern = "aab"` under `c8_cfg` (default
except `gap_start = -100`, a configuration the claim quantifies over):
`14` versus `-34`.  In compressed mode `P[i][0]` for even logical rows
`i ≥ 2` is read from the stale row-0 initialization (`gap_extension`
instead of `NEG_INFINITY`): the impossible state "both `'a'`s consumed
within the first choice character" scores `-2` instead of the sentinel, so
the early `'b'` match builds a phantom alignment worth `14`, while the
genuine alignment `a@1, a@3, b@4` pays the real gap and scores `-34`. -/
theorem claim_C8_divergence :
    ((fuzzy c8_cfg [] [] c8_choice c8_pattern false).1).map Prod.fst =
      some 14 ∧
    ((fuzzy c8_cfg [] [] c8_choice c8_pattern true).1).map Prod.fst =
      some (-34) ∧
    ((fuzzy c8_cfg [] [] c8_choice c8_pattern false).1).map Prod.fst ≠
      ((fuzzy c8_cfg [] [] c8_choice c8_pattern true).1).map Prod.fst := by
  refine ⟨by decide, by decide, by decide⟩

set_option maxRecDepth 1000000 in
/-- Claim C9: two `fuzzy_indices` calls on the same thread with the identical
input `("aab", "ab")` return different indices when a call on `("xab", "ab")`
runs between them and reuses the scratch buffers: the movement of a match
cell is only written when `prev_match_score ≥ prev_skip_score`, so the
second identical call reads a stale `Match` left by the interleaved call. -/
theorem claim_C9_divergence :
    c9_first.1 = some (43, [0, 2]) ∧
    c9_third.1 = some (43, [1, 2]) ∧
    c9_first.1 ≠ c9_third.1 := by
  refine ⟨by decide, by decide, by decide⟩

end Skim

namespace Skim

/-! ### Single-write lemmas for the fill loop -/

theorem mat_set_score_getD_ne (m : List MatrixCell) (cols r c q : Nat) (s : Int)
    (h : r * cols + c ≠ q) :
    (mat_set_score m cols r c s).getD q MatrixCell.init = m.getD q MatrixCell.init := by
  unfold mat_set_score
  exact getD_set_ne _ _ _ _ _ h

theorem mat_set_movement_getD_ne (m : List MatrixCell) (cols r c q : Nat) (mv : Movement)
    (h : r * cols + c ≠ q) :
    (mat_set_movement m cols r c mv).getD q MatrixCell.init = m.getD q MatrixCell.init := by
  unfold mat_set_movement
  exact getD_set_ne _ _ _ _ _ h

theorem mat_set_score_getD_self (m : List MatrixCell) (cols r c : Nat) (s : Int)
    (h : r * cols + c < m.length) :
    (mat_set_score m cols r c s).getD (r * cols + c) MatrixCell.init =
      { m.getD (r * cols + c) MatrixCell.init with score := s } := by
  unfold mat_set_score
  exact getD_set_self _ _ _ _ h

theorem mat_set_movement_getD_self (m : List MatrixCell) (cols r c : Nat) (mv : Movement)
    (h : r * cols + c < m.length) :
    (mat_set_movement m cols r c mv).getD (r * cols + c) MatrixCell.init =
      { m.getD (r * cols + c) MatrixCell.init with movement := mv } := by
  unfold mat_set_movement
  exact getD_set_self _ _ _ _ h

/-- `fill_cell` (full mode) preserves both buffer lengths. -/
theorem fill_cell_length (cfg : MatcherCfg) (case_sensitive : Bool) (cols : Nat)
    (p_ch c_ch prev_ch : Char) (i j : Nat) (st : List MatrixCell × List MatrixCell) :
    (fill_cell cfg false case_sensitive cols p_ch c_ch prev_ch i j st).1.length =
      st.1.length ∧
    (fill_cell cfg false case_sensitive cols p_ch c_ch prev_ch i j st).2.length =
      st.2.length := by
  unfold fill_cell
  cases h : calculate_match_score cfg prev_ch c_ch p_ch i j case_sensitive <;>
    simp only [h] <;> split_ifs <;>
    simp [mat_set_score_length, mat_set_movement_length]

/-- `fill_cell` (full mode) writes only the flat position `(i+1) * cols + (j+1)`. -/
theorem fill_cell_getD_ne (cfg : MatcherCfg) (case_sensitive : Bool) (cols : Nat)
    (p_ch c_ch prev_ch : Char) (i j : Nat) (st : List MatrixCell × List MatrixCell)
    (q : Nat) (hq : (i + 1) * cols + (j + 1) ≠ q) :
    (fill_cell cfg false case_sensitive cols p_ch c_ch prev_ch i j st).1.getD q
        MatrixCell.init = st.1.getD q MatrixCell.init ∧
    (fill_cell cfg false case_sensitive cols p_ch c_ch prev_ch i j st).2.getD q
        MatrixCell.init = st.2.getD q MatrixCell.init := by
  unfold fill_cell
  simp only [adjust_row_idx, Bool.false_eq_true, if_false]
  cases h : calculate_match_score cfg prev_ch c_ch p_ch i j case_sensitive <;>
    simp only [h] <;> split_ifs <;>
    refine ⟨?_, ?_⟩ <;>
    (repeat first
      | rfl
      | rw [mat_set_movement_getD_ne _ _ _ _ _ _ hq]
      | rw [mat_set_score_getD_ne _ _ _ _ _ _ hq])

end Skim

namespace Skim

/-! ### Cell-level write/read lemmas -/

theorem mat_get_set_score_self (m : List MatrixCell) (cols r c : Nat) (s : Int)
    (h : r * cols + c < m.length) :
    mat_get (mat_set_score m cols r c s) cols r c =
      { mat_get m cols r c with score := s } := by
  unfold mat_get
  exact mat_set_score_getD_self m cols r c s h

theorem mat_get_set_movement_self (m : List MatrixCell) (cols r c : Nat) (mv : Movement)
    (h : r * cols + c < m.length) :
    mat_get (mat_set_movement m cols r c mv) cols r c =
      { mat_get m cols r c with movement := mv } := by
  unfold mat_get
  exact mat_set_movement_getD_self m cols r c mv h

theorem mat_get_set_score_ne (m : List MatrixCell) (cols r c r' c' : Nat) (s : Int)
    (h : r * cols + c ≠ r' * cols + c') :
    mat_get (mat_set_score m cols r c s) cols r' c' = mat_get m cols r' c' := by
  unfold mat_get
  exact mat_set_score_getD_ne m cols r c _ s h

theorem mat_get_set_movement_ne (m : List MatrixCell) (cols r c r' c' : Nat) (mv : Movement)
    (h : r * cols + c ≠ r' * cols + c') :
    mat_get (mat_set_movement m cols r c mv) cols r' c' = mat_get m cols r' c' := by
  unfold mat_get
  exact mat_set_movement_getD_ne m cols r c _ mv h

/-- `fill_cell` leaves every cell other than `(i+1, j+1)` unchanged
(cell-level form of `fill_cell_getD_ne`). -/
theorem fill_cell_mat_get_ne (cfg : MatcherCfg) (case_sensitive : Bool) (cols : Nat)
    (p_ch c_ch prev_ch : Char) (i j : Nat) (st : List MatrixCell × List MatrixCell)
    (r c : Nat) (hq : (i + 1) * cols + (j + 1) ≠ r * cols + c) :
    mat_get (fill_cell cfg false case_sensitive cols p_ch c_ch prev_ch i j st).1 cols r c =
      mat_get st.1 cols r c ∧
    mat_get (fill_cell cfg false case_sensitive cols p_ch c_ch prev_ch i j st).2 cols r c =
      mat_get st.2 cols r c := by
  unfold mat_get
  exact fill_cell_getD_ne cfg case_sensitive cols p_ch c_ch prev_ch i j st _ hq

/-- The `M` cell written by `fill_cell` in the matching case. -/
theorem fill_cell_m_some (cfg : MatcherCfg) (case_sensitive : Bool) (cols : Nat)
    (p_ch c_ch prev_ch : Char) (i j : Nat) (st : List MatrixCell × List MatrixCell)
    (ms : Nat)
    (h : calculate_match_score cfg prev_ch c_ch p_ch i j case_sensitive = some ms)
    (hm : (i + 1) * cols + (j + 1) < st.1.length) :
    mat_get (fill_cell cfg false case_sensitive cols p_ch c_ch prev_ch i j st).1 cols
        (i + 1) (j + 1) =
      { movement :=
          if (mat_get st.1 cols i j).score ≥ (mat_get st.2 cols i j).score then
            Movement.Match
          else (mat_get st.1 cols (i + 1) (j + 1)).movement,
        score := (ms : Int) +
          max ((mat_get st.1 cols i j).score + cfg.score_config.bonus_consecutive)
            ((mat_get st.2 cols i j).score) } := by
  unfold fill_cell
  simp only [adjust_row_idx, Bool.false_eq_true, if_false, h]
  by_cases hge : (mat_get st.1 cols i j).score ≥ (mat_get st.2 cols i j).score
  · rw [if_pos hge, if_pos hge]
    rw [mat_get_set_score_self _ _ _ _ _ (by rw [mat_set_movement_length]; exact hm)]
    rw [mat_get_set_movement_self _ _ _ _ _ hm]
  · rw [if_neg hge, if_neg hge]
    rw [mat_get_set_score_self _ _ _ _ _ hm]

/-- The `M` cell written by `fill_cell` in the non-matching case. -/
theorem fill_cell_m_none (cfg : MatcherCfg) (case_sensitive : Bool) (cols : Nat)
    (p_ch c_ch prev_ch : Char) (i j : Nat) (st : List MatrixCell × List MatrixCell)
    (h : calculate_match_score cfg prev_ch c_ch p_ch i j case_sensitive = none)
    (hm : (i + 1) * cols + (j + 1) < st.1.length) :
    mat_get (fill_cell cfg false case_sensitive cols p_ch c_ch prev_ch i j st).1 cols
        (i + 1) (j + 1) = MatrixCell.init := by
  unfold fill_cell
  simp only [adjust_row_idx, Bool.false_eq_true, if_false, h]
  rw [mat_get_set_movement_self _ _ _ _ _ (by rw [mat_set_score_length]; exact hm)]
  rw [mat_get_set_score_self _ _ _ _ _ hm]
  rfl

/-- The `P` cell written by `fill_cell`, expressed over the input state. -/
theorem fill_cell_p (cfg : MatcherCfg) (case_sensitive : Bool) (cols : Nat)
    (p_ch c_ch prev_ch : Char) (i j : Nat) (st : List MatrixCell × List MatrixCell)
    (hp : (i + 1) * cols + (j + 1) < st.2.length) :
    mat_get (fill_cell cfg false case_sensitive cols p_ch c_ch prev_ch i j st).2 cols
        (i + 1) (j + 1) =
      (if cfg.score_config.gap_start + cfg.score_config.gap_extension +
            (mat_get st.1 cols (i + 1) j).score ≥
          cfg.score_config.gap_extension + (mat_get st.2 cols (i + 1) j).score then
        { movement := Movement.Match,
          score := cfg.score_config.gap_start + cfg.score_config.gap_extension +
            (mat_get st.1 cols (i + 1) j).score }
      else
        { movement := Movement.Skip,
          score := cfg.score_config.gap_extension +
            (mat_get st.2 cols (i + 1) j).score }) := by
  have hqp : (i + 1) * cols + (j + 1) ≠ (i + 1) * cols + j := by omega
  unfold fill_cell
  simp only [adjust_row_idx, Bool.false_eq_true, if_false]
  cases h : calculate_match_score cfg prev_ch c_ch p_ch i j case_sensitive with
  | none =>
    simp only
    rw [mat_get_set_movement_ne _ _ _ _ _ _ _ hqp, mat_get_set_score_ne _ _ _ _ _ _ _ hqp]
    by_cases hge : cfg.score_config.gap_start + cfg.score_config.gap_extension +
        (mat_get st.1 cols (i + 1) j).score ≥
        cfg.score_config.gap_extension + (mat_get st.2 cols (i + 1) j).score
    · rw [if_pos hge, if_pos hge]
      rw [mat_get_set_movement_self _ _ _ _ _ (by rw [mat_set_score_length]; exact hp)]
      rw [mat_get_set_score_self _ _ _ _ _ hp]
    · rw [if_neg hge, if_neg hge]
      rw [mat_get_set_movement_self _ _ _ _ _ (by rw [mat_set_score_length]; exact hp)]
      rw [mat_get_set_score_self _ _ _ _ _ hp]
  | some ms =>
    simp only
    have hmread : ∀ mm : List MatrixCell,
        mat_get (mat_set_score mm cols (i + 1) (j + 1)
          ((ms : Int) + max ((mat_get st.1 cols i j).score +
              cfg.score_config.bonus_consecutive) ((mat_get st.2 cols i j).score)))
          cols (i + 1) j = mat_get mm cols (i + 1) j := by
      intro mm
      exact mat_get_set_score_ne _ _ _ _ _ _ _ hqp
    by_cases hc : (mat_get st.1 cols i j).score ≥ (mat_get st.2 cols i j).score
    · rw [if_pos hc]
      rw [hmread, mat_get_set_movement_ne _ _ _ _ _ _ _ hqp]
      by_cases hge : cfg.score_config.gap_start + cfg.score_config.gap_extension +
          (mat_get st.1 cols (i + 1) j).score ≥
          cfg.score_config.gap_extension + (mat_get st.2 cols (i + 1) j).score
      · rw [if_pos hge, if_pos hge]
        rw [mat_get_set_movement_self _ _ _ _ _ (by rw [mat_set_score_length]; exact hp)]
        rw [mat_get_set_score_self _ _ _ _ _ hp]
      · rw [if_neg hge, if_neg hge]
        rw [mat_get_set_movement_self _ _ _ _ _ (by rw [mat_set_score_length]; exact hp)]
        rw [mat_get_set_score_self _ _ _ _ _ hp]
    · rw [if_neg hc]
      rw [hmread]
      by_cases hge : cfg.score_config.gap_start + cfg.score_config.gap_extension +
          (mat_get st.1 cols (i + 1) j).score ≥
          cfg.score_config.gap_extension + (mat_get st.2 cols (i + 1) j).score
      · rw [if_pos hge, if_pos hge]
        rw [mat_get_set_movement_self _ _ _ _ _ (by rw [mat_set_score_length]; exact hp)]
        rw [mat_get_set_score_self _ _ _ _ _ hp]
      · rw [if_neg hge, if_neg hge]
        rw [mat_get_set_movement_self _ _ _ _ _ (by rw [mat_set_score_length]; exact hp)]
        rw [mat_get_set_score_self _ _ _ _ _ hp]

/-- `fill_cell` (full mode) establishes claim C1's cell equations at the cell
it writes, with the `else`-movement taken from the input buffer. -/
theorem fill_cell_cellEqs (cfg : MatcherCfg) (case_sensitive : Bool) (cols : Nat)
    (p_ch c_ch prev_ch : Char) (i j : Nat) (st : List MatrixCell × List MatrixCell)
    (hm : (i + 1) * cols + (j + 1) < st.1.length)
    (hp : (i + 1) * cols + (j + 1) < st.2.length) :
    CellEqs cfg case_sensitive cols
      (fill_cell cfg false case_sensitive cols p_ch c_ch prev_ch i j st)
      p_ch c_ch prev_ch i j ((mat_get st.1 cols (i + 1) (j + 1)).movement) := by
  have hqm : (i + 1) * cols + (j + 1) ≠ i * cols + j := by
    have hmul : (i + 1) * cols = i * cols + cols := by ring
    omega
  have hqp : (i + 1) * cols + (j + 1) ≠ (i + 1) * cols + j := by omega
  obtain ⟨hm1, hp1⟩ := fill_cell_mat_get_ne cfg case_sensitive cols p_ch c_ch prev_ch
    i j st i j hqm
  obtain ⟨hm2, hp2⟩ := fill_cell_mat_get_ne cfg case_sensitive cols p_ch c_ch prev_ch
    i j st (i + 1) j hqp
  refine ⟨?_, ?_, ?_, ?_⟩
  · intro ms hms
    rw [fill_cell_m_some cfg case_sensitive cols p_ch c_ch prev_ch i j st ms hms hm,
      hm1, hp1]
    exact ⟨rfl, rfl⟩
  · intro hnone
    exact fill_cell_m_none cfg case_sensitive cols p_ch c_ch prev_ch i j st hnone hm
  · rw [fill_cell_p cfg case_sensitive cols p_ch c_ch prev_ch i j st hp, hm2, hp2]
    split_ifs with hge
    · exact (max_eq_left hge).symm
    · exact (max_eq_right (le_of_not_le hge)).symm
  · rw [fill_cell_p cfg case_sensitive cols p_ch c_ch prev_ch i j st hp, hm2, hp2]
    split_ifs with hge <;> rfl

end Skim

namespace Skim

/-- `CellEqs` only inspects six cells; states agreeing there satisfy it
together. -/
theorem CellEqs_congr (cfg : MatcherCfg) (case_sensitive : Bool) (cols : Nat)
    (stA stB : List MatrixCell × List MatrixCell) (p_ch c_ch prev_ch : Char)
    (i j : Nat) (mv : Movement)
    (h1 : mat_get stB.1 cols i j = mat_get stA.1 cols i j)
    (h2 : mat_get stB.2 cols i j = mat_get stA.2 cols i j)
    (h3 : mat_get stB.1 cols (i + 1) j = mat_get stA.1 cols (i + 1) j)
    (h4 : mat_get stB.2 cols (i + 1) j = mat_get stA.2 cols (i + 1) j)
    (h5 : mat_get stB.1 cols (i + 1) (j + 1) = mat_get stA.1 cols (i + 1) (j + 1))
    (h6 : mat_get stB.2 cols (i + 1) (j + 1) = mat_get stA.2 cols (i + 1) (j + 1))
    (h : CellEqs cfg case_sensitive cols stA p_ch c_ch prev_ch i j mv) :
    CellEqs cfg case_sensitive cols stB p_ch c_ch prev_ch i j mv := by
  unfold CellEqs at h ⊢
  rw [h1, h2, h3, h4, h5, h6]
  exact h

/-- The inner fill loop: lengths are preserved, only the cells
`(i+1, j0+1) … (i+1, j0+|rest|)` are written, and every written cell
satisfies claim C1's equations over the final state, with the
`else`-movement taken from the state the loop started from. -/
theorem fill_row_spec (cfg : MatcherCfg) (case_sensitive : Bool) (cols : Nat)
    (p_ch : Char) (i : Nat) :
    ∀ (rest : List Char) (j0 : Nat) (pv : Char) (st : List MatrixCell × List MatrixCell),
    j0 + rest.length < cols →
    (i + 1) * cols + (j0 + rest.length) < st.1.length →
    st.2.length = st.1.length →
    (fill_row cfg false case_sensitive cols p_ch i j0 pv rest st).1.length = st.1.length ∧
    (fill_row cfg false case_sensitive cols p_ch i j0 pv rest st).2.length = st.2.length ∧
    (∀ q, (∀ k, k < rest.length → q ≠ (i + 1) * cols + (j0 + k + 1)) →
      (fill_row cfg false case_sensitive cols p_ch i j0 pv rest st).1.getD q
          MatrixCell.init = st.1.getD q MatrixCell.init ∧
      (fill_row cfg false case_sensitive cols p_ch i j0 pv rest st).2.getD q
          MatrixCell.init = st.2.getD q MatrixCell.init) ∧
    (∀ k, k < rest.length →
      CellEqs cfg case_sensitive cols
        (fill_row cfg false case_sensitive cols p_ch i j0 pv rest st)
        p_ch (rest.getD k ' ') (if k = 0 then pv else rest.getD (k - 1) ' ')
        i (j0 + k)
        ((mat_get st.1 cols (i + 1) (j0 + k + 1)).movement)) := by
  intro rest
  induction rest with
  | nil =>
    intro j0 pv st hjc hlen hpm
    exact ⟨rfl, rfl, fun q hq => ⟨rfl, rfl⟩, fun k hk => absurd hk (by simp)⟩
  | cons c rest' ih =>
    intro j0 pv st hjc hlen hpm
    have hrlen : (c :: rest').length = rest'.length + 1 := rfl
    have hic : (i + 1) * cols = i * cols + cols := by ring
    have hq0 : (i + 1) * cols + (j0 + 1) < st.1.length := by
      rw [hrlen] at hlen; omega
    have hq0p : (i + 1) * cols + (j0 + 1) < st.2.length := by
      rw [hpm]; exact hq0
    have hlen1 := fill_cell_length cfg case_sensitive cols p_ch c pv i j0 st
    have hcell := fill_cell_cellEqs cfg case_sensitive cols p_ch c pv i j0 st hq0 hq0p
    have ihc := ih (j0 + 1) c (fill_cell cfg false case_sensitive cols p_ch c pv i j0 st)
      (by rw [hrlen] at hjc; omega)
      (by rw [hlen1.1]; rw [hrlen] at hlen; omega)
      (by rw [hlen1.2, hlen1.1]; exact hpm)
    obtain ⟨ihL1, ihL2, ihF, ihE⟩ := ihc
    have hstep : fill_row cfg false case_sensitive cols p_ch i j0 pv (c :: rest') st =
        fill_row cfg false case_sensitive cols p_ch i (j0 + 1) c rest'
          (fill_cell cfg false case_sensitive cols p_ch c pv i j0 st) := rfl
    refine ⟨?_, ?_, ?_, ?_⟩
    · rw [hstep, ihL1, hlen1.1]
    · rw [hstep, ihL2, hlen1.2]
    · intro q hq
      have hq0' : (i + 1) * cols + (j0 + 1) ≠ q := by
        have := hq 0 (by rw [hrlen]; omega)
        omega
      have hqk : ∀ k, k < rest'.length → q ≠ (i + 1) * cols + (j0 + 1 + k + 1) := by
        intro k hk
        have := hq (k + 1) (by rw [hrlen]; omega)
        omega
      obtain ⟨f1, f2⟩ := ihF q hqk
      obtain ⟨g1, g2⟩ := fill_cell_getD_ne cfg case_sensitive cols p_ch c pv i j0 st q hq0'
      rw [hstep]
      exact ⟨by rw [f1, g1], by rw [f2, g2]⟩
    · intro k hk
      rw [hstep]
      cases k with
      | zero =>
        simp only [List.getD_cons_zero, if_pos rfl, Nat.add_zero]
        have hav1 : ∀ k', k' < rest'.length →
            i * cols + j0 ≠ (i + 1) * cols + (j0 + 1 + k' + 1) := by
          intro k' hk'; omega
        have hav2 : ∀ k', k' < rest'.length →
            (i + 1) * cols + j0 ≠ (i + 1) * cols + (j0 + 1 + k' + 1) := by
          intro k' hk'; omega
        have hav3 : ∀ k', k' < rest'.length →
            (i + 1) * cols + (j0 + 1) ≠ (i + 1) * cols + (j0 + 1 + k' + 1) := by
          intro k' hk'; omega
        exact CellEqs_congr cfg case_sensitive cols _ _ p_ch c pv i j0 _
          (ihF (i * cols + j0) hav1).1 (ihF (i * cols + j0) hav1).2
          (ihF ((i + 1) * cols + j0) hav2).1 (ihF ((i + 1) * cols + j0) hav2).2
          (ihF ((i + 1) * cols + (j0 + 1)) hav3).1 (ihF ((i + 1) * cols + (j0 + 1)) hav3).2
          hcell
      | succ k' =>
        have hk' : k' < rest'.length := by rw [hrlen] at hk; omega
        have he := ihE k' hk'
        have hidx : j0 + 1 + k' = j0 + (k' + 1) := by omega
        rw [hidx] at he
        have hmv : mat_get (fill_cell cfg false case_sensitive cols p_ch c pv i j0 st).1
            cols (i + 1) (j0 + (k' + 1) + 1) =
            mat_get st.1 cols (i + 1) (j0 + (k' + 1) + 1) :=
          (fill_cell_mat_get_ne cfg case_sensitive cols p_ch c pv i j0 st (i + 1)
            (j0 + (k' + 1) + 1) (by omega)).1
        rw [hmv] at he
        have hgetd : rest'.getD k' ' ' = (c :: rest').getD (k' + 1) ' ' := rfl
        have hprev : (if k' = 0 then c else rest'.getD (k' - 1) ' ') =
            (if k' + 1 = 0 then pv else (c :: rest').getD (k' + 1 - 1) ' ') := by
          cases k' with
          | zero => rfl
          | succ n => rfl
        rw [hgetd, hprev] at he
        exact he

end Skim

namespace Skim

theorem getD_replicate_init : ∀ (n q : Nat),
    (List.replicate n MatrixCell.init).getD q MatrixCell.init = MatrixCell.init
  | 0, _ => rfl
  | _ + 1, 0 => rfl
  | n + 1, q + 1 => getD_replicate_init n q

theorem vec_resize_nil_getD (n q : Nat) :
    (vec_resize [] n).getD q MatrixCell.init = MatrixCell.init := by
  unfold vec_resize
  simp only [List.length_nil, Nat.le_zero, List.take_nil, List.nil_append, Nat.sub_zero]
  split
  · cases q <;> rfl
  · exact getD_replicate_init n q

/-- The outer fill loop: rows at or before `i0` and column 0 are untouched,
and every cell of the processed rows satisfies claim C1's equations with
`Skip` as the `else`-movement, provided the interior of the not-yet-processed
rows holds default cells (true of freshly initialized buffers). -/
theorem fill_all_spec (cfg : MatcherCfg) (case_sensitive : Bool) (cols : Nat)
    (choice : List Char) (rows : Nat) (hchoice : choice.length + 1 = cols) :
    ∀ (pats : List Char) (i0 : Nat) (st : List MatrixCell × List MatrixCell),
    i0 + pats.length + 1 ≤ rows →
    st.1.length = rows * cols →
    st.2.length = rows * cols →
    (∀ r c, i0 + 1 ≤ r → 1 ≤ c → c < cols → mat_get st.1 cols r c = MatrixCell.init) →
    (fill_all cfg false case_sensitive cols choice pats i0 st).1.length = rows * cols ∧
    (fill_all cfg false case_sensitive cols choice pats i0 st).2.length = rows * cols ∧
    (∀ r c, c < cols → (r ≤ i0 ∨ c = 0) →
      mat_get (fill_all cfg false case_sensitive cols choice pats i0 st).1 cols r c =
        mat_get st.1 cols r c ∧
      mat_get (fill_all cfg false case_sensitive cols choice pats i0 st).2 cols r c =
        mat_get st.2 cols r c) ∧
    (∀ k, k < pats.length → ∀ j, j < choice.length →
      CellEqs cfg case_sensitive cols
        (fill_all cfg false case_sensitive cols choice pats i0 st)
        (pats.getD k ' ') (choice.getD j ' ')
        (if j = 0 then '\x00' else choice.getD (j - 1) ' ')
        (i0 + k) j Movement.Skip) := by
  intro pats
  induction pats with
  | nil =>
    intro i0 st hrows hm hp hfresh
    exact ⟨hm, hp, fun r c hc hrc => ⟨rfl, rfl⟩, fun k hk => absurd hk (by simp)⟩
  | cons p pats' ih =>
    intro i0 st hrows hm hp hfresh
    have hplen : (p :: pats').length = pats'.length + 1 := rfl
    have hic : (i0 + 1) * cols = i0 * cols + cols := by ring
    have hic2 : (i0 + 2) * cols = (i0 + 1) * cols + cols := by ring
    have hrowsmul : (i0 + 2) * cols ≤ rows * cols := by
      refine Nat.mul_le_mul_right cols ?_
      rw [hplen] at hrows
      omega
    have hrow := fill_row_spec cfg case_sensitive cols p i0 choice 0 '\x00' st
      (by omega) (by rw [hm]; omega) (by rw [hm, hp])
    obtain ⟨rowL1, rowL2, rowF, rowE⟩ := hrow
    have hstep : fill_all cfg false case_sensitive cols choice (p :: pats') i0 st =
        fill_all cfg false case_sensitive cols choice pats' (i0 + 1)
          (fill_row cfg false case_sensitive cols p i0 0 '\x00' choice st) := rfl
    -- stability of st under the row fill, for rows ≤ i0 or column 0
    have hrowF : ∀ r c, c < cols → (r ≤ i0 ∨ c = 0) →
        mat_get (fill_row cfg false case_sensitive cols p i0 0 '\x00' choice st).1 cols r c =
          mat_get st.1 cols r c ∧
        mat_get (fill_row cfg false case_sensitive cols p i0 0 '\x00' choice st).2 cols r c =
          mat_get st.2 cols r c := by
      intro r c hc hrc
      have havoid : ∀ k, k < choice.length → r * cols + c ≠ (i0 + 1) * cols + (0 + k + 1) := by
        intro k hk heq
        have hkc : 0 + k + 1 < cols := by omega
        obtain ⟨hr, hcc⟩ := flat_index_inj hc hkc heq
        rcases hrc with hr0 | hc0
        · omega
        · omega
      exact rowF (r * cols + c) havoid
    -- the interior of rows strictly after i0+1 is still fresh
    have hfresh' : ∀ r c, (i0 + 1) + 1 ≤ r → 1 ≤ c → c < cols →
        mat_get (fill_row cfg false case_sensitive cols p i0 0 '\x00' choice st).1 cols r c =
          MatrixCell.init := by
      intro r c hr hc1 hc2
      have havoid : ∀ k, k < choice.length → r * cols + c ≠ (i0 + 1) * cols + (0 + k + 1) := by
        intro k hk heq
        have hkc : 0 + k + 1 < cols := by omega
        obtain ⟨hr', hcc⟩ := flat_index_inj hc2 hkc heq
        omega
      have := (rowF (r * cols + c) havoid).1
      unfold mat_get
      rw [this]
      exact hfresh r c (by omega) hc1 hc2
    have ihc := ih (i0 + 1)
      (fill_row cfg false case_sensitive cols p i0 0 '\x00' choice st)
      (by rw [hplen] at hrows; omega)
      (by rw [rowL1, hm]) (by rw [rowL2, hp]) hfresh'
    obtain ⟨ihL1, ihL2, ihS, ihE⟩ := ihc
    refine ⟨by rw [hstep]; exact ihL1, by rw [hstep]; exact ihL2, ?_, ?_⟩
    · intro r c hc hrc
      rw [hstep]
      obtain ⟨s1, s2⟩ := ihS r c hc
        (by rcases hrc with h | h
            exacts [Or.inl (by omega), Or.inr h])
      obtain ⟨t1, t2⟩ := hrowF r c hc hrc
      exact ⟨by rw [s1, t1], by rw [s2, t2]⟩
    · intro k hk j hj
      rw [hstep]
      cases k with
      | zero =>
        -- row i0, filled by this iteration; transported through the recursion
        have he := rowE j hj
        have hj1 : 0 + j = j := by omega
        rw [hj1] at he
        have hmv : (mat_get st.1 cols (i0 + 1) (j + 1)).movement = Movement.Skip := by
          rw [hfresh (i0 + 1) (j + 1) (by omega) (by omega) (by omega)]
          rfl
        rw [hmv] at he
        have hjc : j < cols := by omega
        have hjc1 : j + 1 < cols := by omega
        refine CellEqs_congr cfg case_sensitive cols _ _ p
          (choice.getD j ' ') (if j = 0 then '\x00' else choice.getD (j - 1) ' ')
          i0 j Movement.Skip
          (ihS i0 j hjc (by left; omega)).1 (ihS i0 j hjc (by left; omega)).2
          (ihS (i0 + 1) j hjc (by left; omega)).1 (ihS (i0 + 1) j hjc (by left; omega)).2
          (ihS (i0 + 1) (j + 1) hjc1 (by left; omega)).1
          (ihS (i0 + 1) (j + 1) hjc1 (by left; omega)).2
          he
      | succ k' =>
        have hk' : k' < pats'.length := by rw [hplen] at hk; omega
        have he := ihE k' hk' j hj
        have hi : i0 + 1 + k' = i0 + (k' + 1) := by omega
        rw [hi] at he
        exact he

end Skim

namespace Skim

/-- On freshly initialized buffers every inner cell of the full V2 fill
satisfies the recurrence captured by `CellEqs` (with `Skip` as the
else-movement of an unwritten match cell). -/
theorem bsm_cellEqs (cfg : MatcherCfg) (case_sensitive : Bool)
    (choice pattern : List Char) (i j : Nat)
    (hi : i < pattern.length) (hj : j < choice.length) :
    CellEqs cfg case_sensitive (choice.length + 1)
      (build_score_matrix cfg (pattern.length + 1) (choice.length + 1) choice pattern
        false case_sensitive
        (vec_resize [] ((pattern.length + 1) * (choice.length + 1)))
        (vec_resize [] ((pattern.length + 1) * (choice.length + 1))))
      (pattern.getD i ' ') (choice.getD j ' ')
      (if j = 0 then '\x00' else choice.getD (j - 1) ' ') i j Movement.Skip := by
  have hcols : 0 < choice.length + 1 := by omega
  have hmlen : (bsm_init cfg (pattern.length + 1) (choice.length + 1)
      (vec_resize [] ((pattern.length + 1) * (choice.length + 1)))
      (vec_resize [] ((pattern.length + 1) * (choice.length + 1)))).1.length =
      (pattern.length + 1) * (choice.length + 1) := by
    unfold bsm_init
    simp only
    rw [init_row0_length, init_col0_length, vec_resize_length]
  have hplen : (bsm_init cfg (pattern.length + 1) (choice.length + 1)
      (vec_resize [] ((pattern.length + 1) * (choice.length + 1)))
      (vec_resize [] ((pattern.length + 1) * (choice.length + 1)))).2.length =
      (pattern.length + 1) * (choice.length + 1) := by
    unfold bsm_init
    simp only
    rw [init_row0_length, init_col0_length, vec_resize_length]
  have hfresh0 : ∀ r c, 0 + 1 ≤ r → 1 ≤ c → c < choice.length + 1 →
      mat_get (bsm_init cfg (pattern.length + 1) (choice.length + 1)
        (vec_resize [] ((pattern.length + 1) * (choice.length + 1)))
        (vec_resize [] ((pattern.length + 1) * (choice.length + 1)))).1
        (choice.length + 1) r c = MatrixCell.init := by
    intro r c hr hc1 hc2
    unfold bsm_init mat_get
    simp only
    rw [init_row0_getD_miss _ _ _ _ (by
      have h1 : 1 * (choice.length + 1) ≤ r * (choice.length + 1) :=
        Nat.mul_le_mul_right _ hr
      omega)]
    rw [init_col0_getD_miss _ _ _ _ _ (by
      intro i' hi' heq
      obtain ⟨-, hc0⟩ := @flat_index_inj r c i' 0 (choice.length + 1) hc2 hcols
        (by rw [Nat.add_zero]; exact heq)
      omega)]
    exact vec_resize_nil_getD _ _
  have hspec := fill_all_spec cfg case_sensitive (choice.length + 1) choice
    (pattern.length + 1) rfl pattern 0
    (bsm_init cfg (pattern.length + 1) (choice.length + 1)
      (vec_resize [] ((pattern.length + 1) * (choice.length + 1)))
      (vec_resize [] ((pattern.length + 1) * (choice.length + 1))))
    (by omega) hmlen hplen hfresh0
  have he := hspec.2.2.2 i hi j hj
  rw [show (0 : Nat) + i = i from by omega] at he
  exact he

/-- Claim C1 (amended): in V2's full matrix fill on freshly initialized
buffers, for every `i < |pattern|` and `j < |choice|` the cell `(i+1, j+1)`
satisfies: if the characters match under the case policy then
`M[i+1][j+1] = match_score + max(M[i][j] + bonus_consecutive, P[i][j])` with
movement `Match` iff `M[i][j] ≥ P[i][j]` — compared *without* the
`bonus_consecutive` term — and `Skip` otherwise; if they do not match then
`M[i+1][j+1] = NEG_INFINITY` with movement `Skip`; and
`P[i+1][j+1] = max(gap_start + gap_extension + M[i+1][j], gap_extension +
P[i+1][j])` with movement `Match` iff the first term wins. -/
theorem claim_C1 (cfg : MatcherCfg) (case_sensitive : Bool)
    (choice pattern : List Char) (i j : Nat)
    (hi : i < pattern.length) (hj : j < choice.length) :
    CellEqs cfg case_sensitive (choice.length + 1)
      (build_score_matrix cfg (pattern.length + 1) (choice.length + 1) choice pattern
        false case_sensitive
        (vec_resize [] ((pattern.length + 1) * (choice.length + 1)))
        (vec_resize [] ((pattern.length + 1) * (choice.length + 1))))
      (pattern.getD i ' ') (choice.getD j ' ')
      (if j = 0 then '\x00' else choice.getD (j - 1) ' ') i j Movement.Skip :=
  bsm_cellEqs cfg case_sensitive choice pattern i j hi hj

/-- Witness for C1 at `choice = "ab"`, `pattern = "a"`, cell `(1, 1)`. -/
theorem claim_C1_witness :
    CellEqs MatcherCfg.init false ("ab".toList.length + 1)
      (build_score_matrix MatcherCfg.init ("a".toList.length + 1)
        ("ab".toList.length + 1) "ab".toList "a".toList false false
        (vec_resize [] (("a".toList.length + 1) * ("ab".toList.length + 1)))
        (vec_resize [] (("a".toList.length + 1) * ("ab".toList.length + 1))))
      ("a".toList.getD 0 ' ') ("ab".toList.getD 0 ' ')
      (if 0 = 0 then '\x00' else "ab".toList.getD (0 - 1) ' ') 0 0 Movement.Skip :=
  claim_C1 MatcherCfg.init false "ab".toList "a".toList 0 0 (by decide) (by decide)

end Skim

namespace Skim

/-! ### Claim C7: V1 candidate-grid monotonicity -/

/-- Candidates collected from counter `idx` onward have indices at least
`idx` and at least `match_start_idx`, and are strictly increasing. -/
theorem collect_row_aux_spec (pat_ch : Char) (pat_idx : Nat) (pat_prev_ch : Char)
    (match_start_idx : Nat) :
    ∀ (rest : List Char) (idx : Nat) (prev : Char),
    (∀ st ∈ collect_row_aux pat_ch pat_idx pat_prev_ch match_start_idx idx prev rest,
      idx ≤ st.idx ∧ match_start_idx ≤ st.idx) ∧
    List.Pairwise (fun a b => a.idx < b.idx)
      (collect_row_aux pat_ch pat_idx pat_prev_ch match_start_idx idx prev rest) := by
  intro rest
  induction rest with
  | nil => intro idx prev; exact ⟨by simp [collect_row_aux], by simp [collect_row_aux]⟩
  | cons c cs ih =>
    intro idx prev
    obtain ⟨ihMem, ihPw⟩ := ih (idx + 1) c
    unfold collect_row_aux
    split_ifs with hcond
    · constructor
      · intro st hst
        rcases List.mem_cons.mp hst with hhd | htl
        · subst hhd; exact ⟨le_refl _, hcond.2⟩
        · obtain ⟨h1, h2⟩ := ihMem st htl
          exact ⟨by omega, h2⟩
      · refine List.pairwise_cons.mpr ⟨?_, ihPw⟩
        intro st hst
        obtain ⟨h1, h2⟩ := ihMem st hst
        exact h1
    · refine ⟨fun st hst => ?_, ihPw⟩
      obtain ⟨h1, h2⟩ := ihMem st hst
      exact ⟨by omega, h2⟩

/-- Phase A invariant: every produced row is nonempty with strictly
increasing indices, the first indices of consecutive rows strictly increase,
and the first row's first index is at least the starting bound. -/
theorem phase_a_spec (choice : List Char) :
    ∀ (pats : List Char) (pat_idx : Nat) (pat_prev_ch : Char) (s : Nat)
      (rows : List (List MatchingStatus)),
    phase_a choice pats pat_idx pat_prev_ch s = some rows →
    (∀ r ∈ rows, r ≠ [] ∧ List.Pairwise (fun a b => a.idx < b.idx) r) ∧
    List.Chain' (fun r1 r2 => (r1.headD MatchingStatus.init).idx <
      (r2.headD MatchingStatus.init).idx) rows ∧
    (∀ r0, rows.head? = some r0 → s ≤ (r0.headD MatchingStatus.init).idx) := by
  intro pats
  induction pats with
  | nil =>
    intro pat_idx pat_prev_ch s rows h
    simp only [phase_a, Option.some.injEq] at h
    subst h
    exact ⟨by simp, by simp, by simp⟩
  | cons p ps ih =>
    intro pat_idx pat_prev_ch s rows h
    simp only [phase_a] at h
    rcases hv : collect_row choice p pat_idx pat_prev_ch s with _ | ⟨first, vrest⟩
    · rw [hv] at h; cases h
    · rw [hv] at h
      rcases Option.map_eq_some'.mp h with ⟨rows', hrec, hrows⟩
      subst hrows
      obtain ⟨ihNe, ihCh, ihHd⟩ := ih (pat_idx + 1) p (first.idx + 1) rows' hrec
      have hrowspec := collect_row_aux_spec p pat_idx pat_prev_ch s choice 0 '\x00'
      rw [show collect_row_aux p pat_idx pat_prev_ch s 0 '\x00' choice =
            collect_row choice p pat_idx pat_prev_ch s from rfl, hv] at hrowspec
      refine ⟨?_, ?_, ?_⟩
      · intro r hr
        rcases List.mem_cons.mp hr with hhd | htl
        · subst hhd
          exact ⟨by simp, hrowspec.2⟩
        · exact ihNe r htl
      · cases rows' with
        | nil => simp
        | cons r0 rs =>
          refine List.chain'_cons.mpr ⟨?_, ihCh⟩
          exact ihHd r0 rfl
      · intro r0 hr0
        simp only [List.head?_cons, Option.some.injEq] at hr0
        subst hr0
        simp only [List.headD_cons]
        exact (hrowspec.1 first (by simp)).2

theorem step_cell_idx (prev_row : List MatchingStatus) (k : Nat)
    (prev next : MatchingStatus) : (step_cell prev_row k prev next).idx = next.idx := by
  simp only [step_cell]
  rw [apply_ite (fun st : MatchingStatus => st.idx)]
  simp

theorem step_row_aux_idx (prev_row : List MatchingStatus) :
    ∀ (rows : List MatchingStatus) (k : Nat) (prev : MatchingStatus),
    (step_row_aux prev_row k prev rows).map (fun st => st.idx) =
      rows.map (fun st => st.idx) := by
  intro rows
  induction rows with
  | nil => intro k prev; rfl
  | cons next rest ih =>
    intro k prev
    simp only [step_row_aux, List.map_cons, step_cell_idx, ih]

theorem phase_b_aux_idx :
    ∀ (rows : List (List MatchingStatus)) (prev : List MatchingStatus),
    (phase_b_aux prev rows).map (List.map (fun st => st.idx)) =
      rows.map (List.map (fun st => st.idx)) := by
  intro rows
  induction rows with
  | nil => intro prev; rfl
  | cons r rs ih =>
    intro prev
    simp only [phase_b_aux, List.map_cons, ih]
    rw [show step_row prev r = step_row_aux prev 0 MatchingStatus.init r from rfl,
      step_row_aux_idx]

theorem phase_b_idx (rows : List (List MatchingStatus)) :
    (phase_b rows).map (List.map (fun st => st.idx)) =
      rows.map (List.map (fun st => st.idx)) := by
  cases rows with
  | nil => rfl
  | cons r rs => simp only [phase_b, List.map_cons, phase_b_aux_idx]

theorem headD_idx_map (r : List MatchingStatus) :
    (r.map (fun st => st.idx)).headD MatchingStatus.init.idx =
      (r.headD MatchingStatus.init).idx := by
  cases r <;> rfl

end Skim

namespace Skim

/-- Claim C7: whenever V1's `build_graph` returns a grid, every row's
candidate `idx` values are strictly increasing (and rows are nonempty), and
the first candidate of each row has a strictly greater `idx` than the first
candidate of the previous row. -/
theorem claim_C7 (choice pattern : List Char)
    (h : (build_graph choice pattern).isSome = true) :
    (∀ r ∈ (build_graph choice pattern).getD [], r ≠ [] ∧
      List.Pairwise (fun a b => a.idx < b.idx) r) ∧
    List.Chain' (fun r1 r2 => (r1.headD MatchingStatus.init).idx <
      (r2.headD MatchingStatus.init).idx) ((build_graph choice pattern).getD []) := by
  obtain ⟨g, hg⟩ := Option.isSome_iff_exists.mp h
  rw [hg]
  simp only [Option.getD_some]
  unfold build_graph at hg
  rcases Option.map_eq_some'.mp hg with ⟨ra, hra, hgb⟩
  subst hgb
  obtain ⟨hNe, hCh, -⟩ := phase_a_spec choice pattern 0 '\x00' 0 ra hra
  have hmap := phase_b_idx ra
  constructor
  · intro r hr
    have hmem : r.map (fun st => st.idx) ∈
        (phase_b ra).map (List.map (fun st => st.idx)) :=
      List.mem_map_of_mem _ hr
    rw [hmap] at hmem
    rcases List.mem_map.mp hmem with ⟨r', hr', heq⟩
    obtain ⟨hne', hpw'⟩ := hNe r' hr'
    constructor
    · intro hnil
      apply hne'
      rw [hnil] at heq
      exact List.map_eq_nil.mp heq
    · have hpwmap : List.Pairwise (fun a b => a < b) (r.map (fun st => st.idx)) := by
        rw [← heq]
        exact (List.pairwise_map).mpr hpw'
      exact (List.pairwise_map).mp hpwmap
  · have hchainS : List.Chain'
        (fun l1 l2 : List Nat => l1.headD MatchingStatus.init.idx <
          l2.headD MatchingStatus.init.idx)
        (ra.map (List.map (fun st => st.idx))) := by
      refine (List.chain'_map _).mpr ?_
      refine hCh.imp ?_
      intro a b hab
      rw [headD_idx_map, headD_idx_map]
      exact hab
    rw [← hmap] at hchainS
    have hchain := (List.chain'_map _).mp hchainS
    refine hchain.imp ?_
    intro a b hab
    rw [headD_idx_map, headD_idx_map] at hab
    exact hab

/-- Witness for C7 on `choice = "axbycz"`, `pattern = "abc"`. -/
theorem claim_C7_witness :
    (∀ r ∈ (build_graph "axbycz".toList "abc".toList).getD [], r ≠ [] ∧
      List.Pairwise (fun a b => a.idx < b.idx) r) ∧
    List.Chain' (fun r1 r2 => (r1.headD MatchingStatus.init).idx <
      (r2.headD MatchingStatus.init).idx)
      ((build_graph "axbycz".toList "abc".toList).getD []) :=
  claim_C7 "axbycz".toList "abc".toList (by decide)

end Skim

namespace Skim

/-! ### Claim C3: `none` exactly when no in-order match exists -/

/-- Dropping the head of the matched pattern preserves matchability. -/
theorem ExistsMatch_of_cons {case_sensitive : Bool} {p : Char} {pr choice : List Char}
    (h : ExistsMatch case_sensitive (p :: pr) choice) :
    ExistsMatch case_sensitive pr choice := by
  obtain ⟨l, hsub, hfa⟩ := h
  cases hfa with
  | cons hhead htail =>
    rename_i x l2
    exact ⟨l2, (List.sublist_cons_self x l2).trans hsub, htail⟩

/-- The greedy prefilter succeeds exactly when an in-order case-policy match
exists. -/
theorem cheap_matches_iff (case_sensitive : Bool) :
    ∀ (choice pattern : List Char),
    cheap_matches choice pattern case_sensitive = true ↔
      ExistsMatch case_sensitive pattern choice := by
  intro choice
  induction choice with
  | nil =>
    intro pattern
    cases pattern with
    | nil => exact ⟨fun _ => ⟨[], List.Sublist.refl _, List.Forall₂.nil⟩, fun _ => rfl⟩
    | cons p pr =>
      constructor
      · intro h
        exact absurd h (by simp [cheap_matches])
      · rintro ⟨l, hsub, hfa⟩
        rw [List.sublist_nil.mp hsub] at hfa
        cases hfa
  | cons c cr ih =>
    intro pattern
    cases pattern with
    | nil => exact ⟨fun _ => ⟨[], List.nil_sublist _, List.Forall₂.nil⟩, fun _ => rfl⟩
    | cons p pr =>
      by_cases heq : char_equal c p case_sensitive = true
      · rw [show cheap_matches (c :: cr) (p :: pr) case_sensitive =
            cheap_matches cr pr case_sensitive from by
          simp [cheap_matches, heq]]
        rw [ih pr]
        constructor
        · rintro ⟨l, hsub, hfa⟩
          exact ⟨c :: l, List.Sublist.cons₂ c hsub, List.Forall₂.cons heq hfa⟩
        · rintro ⟨l, hsub, hfa⟩
          cases hfa with
          | cons hhead htail =>
            rename_i x l2
            cases hsub with
            | cons₂ _ hsub2 => exact ⟨l2, hsub2, htail⟩
            | cons _ hsub2 =>
              exact ExistsMatch_of_cons ⟨x :: l2, hsub2, List.Forall₂.cons hhead htail⟩
      · rw [show cheap_matches (c :: cr) (p :: pr) case_sensitive =
            cheap_matches cr (p :: pr) case_sensitive from by
          simp [cheap_matches, heq]]
        rw [ih (p :: pr)]
        constructor
        · rintro ⟨l, hsub, hfa⟩
          exact ⟨l, hsub.cons c, hfa⟩
        · rintro ⟨l, hsub, hfa⟩
          cases hfa with
          | cons hhead htail =>
            rename_i x l2
            cases hsub with
            | cons₂ _ hsub2 => exact absurd hhead heq
            | cons _ hsub2 =>
              exact ⟨x :: l2, hsub2, List.Forall₂.cons hhead htail⟩

end Skim

namespace Skim

/-- A V1 candidate row is empty exactly when no position at or after the
bound folds-equal to the pattern character. -/
theorem collect_row_aux_eq_nil_iff (pat_ch : Char) (pat_idx : Nat) (pat_prev_ch : Char)
    (ms : Nat) :
    ∀ (rest : List Char) (idx : Nat) (prev : Char),
    collect_row_aux pat_ch pat_idx pat_prev_ch ms idx prev rest = [] ↔
      (∀ k, k < rest.length → ms ≤ idx + k →
        ¬ to_ascii_lowercase (rest.getD k ' ') = to_ascii_lowercase pat_ch) := by
  intro rest
  induction rest with
  | nil => intro idx prev; simp [collect_row_aux]
  | cons c cs ih =>
    intro idx prev
    unfold collect_row_aux
    split_ifs with hcond
    · constructor
      · intro h; cases h
      · intro h
        exact absurd hcond.1 (by
          have := h 0 (by simp) (by omega)
          simpa using this)
    · rw [ih (idx + 1) c]
      constructor
      · intro h k hk hms
        cases k with
        | zero =>
          intro habs
          exact hcond ⟨by simpa using habs, by omega⟩
        | succ k2 =>
          have := h k2 (by simpa using hk) (by omega)
          simpa using this
      · intro h k hk hms
        have := h (k + 1) (by simpa using hk) (by omega)
        simpa using this

/-- The head of a nonempty V1 candidate row is the first fold-equal position
at or after the bound. -/
theorem collect_row_aux_head_spec (pat_ch : Char) (pat_idx : Nat) (pat_prev_ch : Char)
    (ms : Nat) :
    ∀ (rest : List Char) (idx : Nat) (prev : Char) (first : MatchingStatus)
      (tail : List MatchingStatus),
    collect_row_aux pat_ch pat_idx pat_prev_ch ms idx prev rest = first :: tail →
    ∃ k, k < rest.length ∧ first.idx = idx + k ∧ ms ≤ idx + k ∧
      to_ascii_lowercase (rest.getD k ' ') = to_ascii_lowercase pat_ch ∧
      (∀ k2, k2 < k → ms ≤ idx + k2 →
        ¬ to_ascii_lowercase (rest.getD k2 ' ') = to_ascii_lowercase pat_ch) := by
  intro rest
  induction rest with
  | nil => intro idx prev first tail h; cases h
  | cons c cs ih =>
    intro idx prev first tail h
    unfold collect_row_aux at h
    split_ifs at h with hcond
    · injection h with h1 h2
      refine ⟨0, by simp, ?_, by omega, by simpa using hcond.1, by omega⟩
      rw [← h1]
      show idx = idx + 0
      omega
    · obtain ⟨k, hk, hidx, hms, heq, hmin⟩ := ih (idx + 1) c first tail h
      have h3 : first.idx = idx + (k + 1) := by rw [hidx, Nat.add_assoc, Nat.add_comm 1 k]
      have h4 : ms ≤ idx + (k + 1) := by omega
      refine ⟨k + 1, by simpa using hk, h3, h4, by simpa using heq, ?_⟩
      intro k2 hk2 hms2
      cases k2 with
      | zero =>
        intro habs
        exact hcond ⟨by simpa using habs, by omega⟩
      | succ k3 =>
        have := hmin k3 (by omega) (by omega)
        simpa using this

/-- On a nonempty suffix, dropping one element steps the greedy prefilter
when the head does not match. -/
theorem cheap_drop_none (pat_ch : Char) (ps : List Char) (choice : List Char) :
    ∀ (d s : Nat), choice.length - s ≤ d →
    (∀ k, k < choice.length → s ≤ k →
      ¬ to_ascii_lowercase (choice.getD k ' ') = to_ascii_lowercase pat_ch) →
    cheap_matches (choice.drop s) (pat_ch :: ps) false = false := by
  intro d
  induction d with
  | zero =>
    intro s hd hnone
    have : choice.drop s = [] := List.drop_eq_nil_of_le (by omega)
    rw [this]
    rfl
  | succ d2 ih =>
    intro s hd hnone
    by_cases hs : choice.length ≤ s
    · rw [List.drop_eq_nil_of_le hs]
      rfl
    · have hlt : s < choice.length := by omega
      have hdrop : choice.drop s = choice[s] :: choice.drop (s + 1) :=
        List.drop_eq_getElem_cons hlt
      rw [hdrop]
      have hne : char_equal choice[s] pat_ch false = false := by
        have := hnone s hlt (le_refl s)
        have hgetd : choice.getD s ' ' = choice[s] := List.getD_eq_getElem choice ' ' hlt
        rw [hgetd] at this
        simp [char_equal, this]
      rw [show cheap_matches (choice[s] :: choice.drop (s + 1)) (pat_ch :: ps) false =
          cheap_matches (choice.drop (s + 1)) (pat_ch :: ps) false from by
        simp [cheap_matches, hne]]
      exact ih (s + 1) (by omega) (fun k hk hsk => hnone k hk (by omega))

/-- When position `h` is the first fold-equal position at or after `s`, the
greedy prefilter on the suffix from `s` consumes the pattern head exactly
there. -/
theorem cheap_drop_first_match (pat_ch : Char) (ps : List Char) (choice : List Char) :
    ∀ (d s hpos : Nat), hpos - s ≤ d → s ≤ hpos → hpos < choice.length →
    to_ascii_lowercase (choice.getD hpos ' ') = to_ascii_lowercase pat_ch →
    (∀ k, s ≤ k → k < hpos →
      ¬ to_ascii_lowercase (choice.getD k ' ') = to_ascii_lowercase pat_ch) →
    cheap_matches (choice.drop s) (pat_ch :: ps) false =
      cheap_matches (choice.drop (hpos + 1)) ps false := by
  intro d
  induction d with
  | zero =>
    intro s hpos hd hsh hlen hmatch hmin
    have hsh2 : s = hpos := by omega
    subst hsh2
    have hdrop : choice.drop s = choice[s] :: choice.drop (s + 1) :=
      List.drop_eq_getElem_cons hlen
    rw [hdrop]
    have heq : char_equal choice[s] pat_ch false = true := by
      have hgetd : choice.getD s ' ' = choice[s] := List.getD_eq_getElem choice ' ' hlen
      rw [hgetd] at hmatch
      simp [char_equal, hmatch]
    simp [cheap_matches, heq]
  | succ d2 ih =>
    intro s hpos hd hsh hlen hmatch hmin
    by_cases hsh2 : s = hpos
    · subst hsh2
      have hdrop : choice.drop s = choice[s] :: choice.drop (s + 1) :=
        List.drop_eq_getElem_cons hlen
      rw [hdrop]
      have heq : char_equal choice[s] pat_ch false = true := by
        have hgetd : choice.getD s ' ' = choice[s] := List.getD_eq_getElem choice ' ' hlen
        rw [hgetd] at hmatch
        simp [char_equal, hmatch]
      simp [cheap_matches, heq]
    · have hslt : s < hpos := by omega
      have hlt : s < choice.length := by omega
      have hdrop : choice.drop s = choice[s] :: choice.drop (s + 1) :=
        List.drop_eq_getElem_cons hlt
      rw [hdrop]
      have hne : char_equal choice[s] pat_ch false = false := by
        have := hmin s (le_refl s) hslt
        have hgetd : choice.getD s ' ' = choice[s] := List.getD_eq_getElem choice ' ' hlt
        rw [hgetd] at this
        simp [char_equal, this]
      rw [show cheap_matches (choice[s] :: choice.drop (s + 1)) (pat_ch :: ps) false =
          cheap_matches (choice.drop (s + 1)) (pat_ch :: ps) false from by
        simp [cheap_matches, hne]]
      exact ih (s + 1) hpos (by omega) (by omega) hlen hmatch
        (fun k hk hkh => hmin k (by omega) hkh)

end Skim

namespace Skim

theorem cheap_matches_nil_pattern (cs : List Char) (b : Bool) :
    cheap_matches cs [] b = true := by
  cases cs <;> rfl

theorem isSome_map {α β : Type} (f : α → β) (o : Option α) :
    (o.map f).isSome = o.isSome := by
  cases o <;> rfl

/-- Phase A succeeds exactly when the greedy prefilter accepts the remaining
pattern on the suffix of choice from the current bound. -/
theorem phase_a_isSome_iff (choice : List Char) :
    ∀ (pats : List Char) (pat_idx : Nat) (pat_prev_ch : Char) (s : Nat),
    (phase_a choice pats pat_idx pat_prev_ch s).isSome = true ↔
      cheap_matches (choice.drop s) pats false = true := by
  intro pats
  induction pats with
  | nil =>
    intro pat_idx pat_prev_ch s
    exact ⟨fun _ => cheap_matches_nil_pattern _ false, fun _ => rfl⟩
  | cons p ps ih =>
    intro pat_idx pat_prev_ch s
    simp only [phase_a]
    cases hv : collect_row choice p pat_idx pat_prev_ch s with
    | nil =>
      have hnone : ∀ k, k < choice.length → s ≤ k →
          ¬ to_ascii_lowercase (choice.getD k ' ') = to_ascii_lowercase p := by
        have := (collect_row_aux_eq_nil_iff p pat_idx pat_prev_ch s choice 0 '\x00').mp hv
        intro k hk hs
        have h2 := this k hk (by omega)
        exact h2
      rw [cheap_drop_none p ps choice choice.length s (by omega) hnone]
      exact iff_of_false (by simp) (by simp)
    | cons first vtail =>
      obtain ⟨k, hk, hidx, hms, heq, hmin⟩ :=
        collect_row_aux_head_spec p pat_idx pat_prev_ch s choice 0 '\x00' first vtail hv
      have hidx2 : first.idx = k := by rw [hidx, Nat.zero_add]
      have hbridge : cheap_matches (choice.drop s) (p :: ps) false =
          cheap_matches (choice.drop (first.idx + 1)) ps false := by
        rw [hidx2]
        exact cheap_drop_first_match p ps choice k s k (by omega) (by omega) hk heq
          (fun k2 hk2 hk2k => hmin k2 hk2k (by omega))
      rw [hbridge, isSome_map]
      exact ih (pat_idx + 1) p (first.idx + 1)

/-- V1's graph construction fails exactly when no in-order ascii-folded
match of the pattern exists in the choice. -/
theorem build_graph_eq_none_iff (choice pattern : List Char) :
    build_graph choice pattern = none ↔ ¬ ExistsMatch false pattern choice := by
  unfold build_graph
  rw [Option.map_eq_none']
  constructor
  · intro h hex
    have hs := (phase_a_isSome_iff choice pattern 0 '\x00' 0).mpr
      (by rw [List.drop_zero]; exact (cheap_matches_iff false choice pattern).mpr hex)
    rw [h] at hs
    cases hs
  · intro hnex
    cases hpa : phase_a choice pattern 0 '\x00' 0 with
    | none => rfl
    | some g =>
      exfalso
      apply hnex
      apply (cheap_matches_iff false choice pattern).mp
      have hs := (phase_a_isSome_iff choice pattern 0 '\x00' 0).mp (by rw [hpa]; rfl)
      rwa [List.drop_zero] at hs

theorem char_indices_aux_map_snd : ∀ (s : List Char) (b : Nat),
    (char_indices_aux b s).map Prod.snd = s
  | [], _ => rfl
  | c :: cs, b => by
    simp only [char_indices_aux, List.map_cons]
    rw [char_indices_aux_map_snd cs]

theorem char_indices_map_snd (s : List Char) :
    (char_indices s).map Prod.snd = s :=
  char_indices_aux_map_snd s 0

/-- The forward pass of `simple_match` consumes the whole pattern exactly
when the greedy prefilter accepts it. -/
theorem simple_fwd_leftover_iff (case_sensitive : Bool) :
    ∀ (cis : List (Nat × Char)) (ps : List Char) (osb : Option Nat) (sc : Nat),
    (simple_fwd case_sensitive cis ps osb sc).1 = [] ↔
      cheap_matches (cis.map Prod.snd) ps case_sensitive = true := by
  intro cis
  induction cis with
  | nil =>
    intro ps osb sc
    cases ps with
    | nil => exact iff_of_true rfl rfl
    | cons p pr =>
      exact iff_of_false (by simp [simple_fwd]) (by simp [cheap_matches])
  | cons bc cr ih =>
    intro ps osb sc
    obtain ⟨b, c⟩ := bc
    cases ps with
    | nil => exact iff_of_true rfl rfl
    | cons p pr =>
      by_cases heq : char_equal c p case_sensitive = true
      · rw [show (simple_fwd case_sensitive ((b, c) :: cr) (p :: pr) osb sc).1 =
            (simple_fwd case_sensitive cr pr
              (match osb with | some x => some x | none => some b)
              (if (match osb with | some x => some x | none => some b) = none
               then sc + 1 else sc)).1 from by
          simp [simple_fwd, heq]]
        rw [show cheap_matches (((b, c) :: cr).map Prod.snd) (p :: pr) case_sensitive =
            cheap_matches (cr.map Prod.snd) pr case_sensitive from by
          simp [cheap_matches, heq]]
        exact ih pr _ _
      · rw [show (simple_fwd case_sensitive ((b, c) :: cr) (p :: pr) osb sc).1 =
            (simple_fwd case_sensitive cr (p :: pr) osb
              (if osb = none then sc + 1 else sc)).1 from by
          simp [simple_fwd, heq]]
        rw [show cheap_matches (((b, c) :: cr).map Prod.snd) (p :: pr) case_sensitive =
            cheap_matches (cr.map Prod.snd) (p :: pr) case_sensitive from by
          simp [cheap_matches, heq]]
        exact ih (p :: pr) _ _

/-- `simple_match` returns a result exactly when the greedy prefilter
accepts the pattern. -/
theorem simple_match_isSome_iff (cfg : MatcherCfg) (choice pattern : List Char)
    (case_sensitive with_pos : Bool) :
    (simple_match cfg choice pattern case_sensitive with_pos).isSome = true ↔
      cheap_matches choice pattern case_sensitive = true := by
  simp only [simple_match]
  split_ifs with h
  · refine iff_of_false (by simp) ?_
    intro hc
    apply h
    apply (simple_fwd_leftover_iff case_sensitive (char_indices choice) pattern none 0).mpr
    rwa [char_indices_map_snd]
  · refine iff_of_true rfl ?_
    have hfwd := (simple_fwd_leftover_iff case_sensitive (char_indices choice)
      pattern none 0).mp (by simpa using h)
    rwa [char_indices_map_snd] at hfwd

/-- When the prefilter accepts, V2's `fuzzy` produces a result on every
path (simple fallback or matrices). -/
theorem fuzzy_fst_isSome_of_cheap (cfg : MatcherCfg) (mc pc : List MatrixCell)
    (choice pattern : List Char) (with_pos : Bool) (hp : pattern ≠ [])
    (hch : cheap_matches choice pattern (case_sensitive_of cfg pattern) = true) :
    (fuzzy cfg mc pc choice pattern with_pos).1.isSome = true := by
  unfold fuzzy
  rw [if_neg hp, if_neg (by simpa using hch)]
  dsimp only
  split_ifs <;>
    first
      | rfl
      | exact (simple_match_isSome_iff cfg choice pattern
          (case_sensitive_of cfg pattern) with_pos).mpr hch

/-- V2's `fuzzy` returns `none` exactly when no in-order case-policy match
exists (for a nonempty pattern, any configuration, any scratch state and
either mode). -/
theorem fuzzy_eq_none_iff (cfg : MatcherCfg) (mc pc : List MatrixCell)
    (choice pattern : List Char) (with_pos : Bool) (hp : pattern ≠ []) :
    (fuzzy cfg mc pc choice pattern with_pos).1 = none ↔
      ¬ ExistsMatch (case_sensitive_of cfg pattern) pattern choice := by
  by_cases hch : cheap_matches choice pattern (case_sensitive_of cfg pattern) = true
  · have hs := fuzzy_fst_isSome_of_cheap cfg mc pc choice pattern with_pos hp hch
    refine iff_of_false ?_
      (fun hn => hn ((cheap_matches_iff _ choice pattern).mp hch))
    intro hnone
    rw [hnone] at hs
    cases hs
  · have hres : (fuzzy cfg mc pc choice pattern with_pos).1 = none := by
      unfold fuzzy
      rw [if_neg hp, if_pos (by simpa using hch)]
    refine iff_of_true hres ?_
    intro hex
    exact hch ((cheap_matches_iff _ choice pattern).mpr hex)

end Skim

namespace Skim

/-- No nonempty pattern matches inside an empty choice. -/
theorem not_existsMatch_nil (case_sensitive : Bool) (pattern : List Char)
    (hp : pattern ≠ []) : ¬ ExistsMatch case_sensitive pattern [] := by
  rintro ⟨l, hsub, hfa⟩
  rw [List.sublist_nil.mp hsub] at hfa
  exact hp (List.forall₂_nil_left_iff.mp hfa)

/-- Claim C3: for both matchers, an empty pattern yields `some (0, [])`
(`some 0` from V1 `fuzzy_match`); a nonempty pattern against an empty choice
yields `none`; and in general the result is `none` exactly when no in-order
case-policy match exists (ascii folding for V1; the configured policy for
V2, for any configuration, scratch state and mode). -/
theorem claim_C3 :
    (∀ choice : List Char,
      fuzzy_match choice [] = some 0 ∧
      fuzzy_indices choice [] = some (0, []) ∧
      (∀ (cfg : MatcherCfg) (mc pc : List MatrixCell) (wp : Bool),
        (fuzzy cfg mc pc choice [] wp).1 = some (0, []))) ∧
    (∀ pattern : List Char, pattern ≠ [] →
      fuzzy_match [] pattern = none ∧
      fuzzy_indices [] pattern = none ∧
      (∀ (cfg : MatcherCfg) (mc pc : List MatrixCell) (wp : Bool),
        (fuzzy cfg mc pc [] pattern wp).1 = none)) ∧
    (∀ choice pattern : List Char, pattern ≠ [] →
      (fuzzy_match choice pattern = none ↔ ¬ ExistsMatch false pattern choice) ∧
      (fuzzy_indices choice pattern = none ↔ ¬ ExistsMatch false pattern choice) ∧
      (∀ (cfg : MatcherCfg) (mc pc : List MatrixCell) (wp : Bool),
        ((fuzzy cfg mc pc choice pattern wp).1 = none ↔
          ¬ ExistsMatch (case_sensitive_of cfg pattern) pattern choice))) := by
  have hmatch_iff : ∀ choice pattern : List Char, pattern ≠ [] →
      (fuzzy_match choice pattern = none ↔ ¬ ExistsMatch false pattern choice) := by
    intro choice pattern hp
    unfold fuzzy_match
    rw [if_neg hp, Option.map_eq_none']
    exact build_graph_eq_none_iff choice pattern
  have hind_iff : ∀ choice pattern : List Char, pattern ≠ [] →
      (fuzzy_indices choice pattern = none ↔ ¬ ExistsMatch false pattern choice) := by
    intro choice pattern hp
    unfold fuzzy_indices
    rw [if_neg hp, Option.map_eq_none']
    exact build_graph_eq_none_iff choice pattern
  refine ⟨?_, ?_, ?_⟩
  · intro choice
    refine ⟨by simp [fuzzy_match], by simp [fuzzy_indices], ?_⟩
    intro cfg mc pc wp
    unfold fuzzy
    rw [if_pos rfl]
  · intro pattern hp
    refine ⟨(hmatch_iff [] pattern hp).mpr (not_existsMatch_nil false pattern hp),
      (hind_iff [] pattern hp).mpr (not_existsMatch_nil false pattern hp), ?_⟩
    intro cfg mc pc wp
    exact (fuzzy_eq_none_iff cfg mc pc [] pattern wp hp).mpr
      (not_existsMatch_nil _ pattern hp)
  · intro choice pattern hp
    exact ⟨hmatch_iff choice pattern hp, hind_iff choice pattern hp,
      fun cfg mc pc wp => fuzzy_eq_none_iff cfg mc pc choice pattern wp hp⟩

/-- Witness for C3: the empty pattern on `"abc"`, a nonempty pattern on the
empty choice, and the `"abc"`/`"abx"` no-match example. -/
theorem claim_C3_witness :
    fuzzy_match "abc".toList [] = some 0 ∧
    fuzzy_match ([] : List Char) "a".toList = none ∧
    (fuzzy_match "abc".toList "abx".toList = none ↔
      ¬ ExistsMatch false "abx".toList "abc".toList) :=
  ⟨(claim_C3.1 "abc".toList).1,
   (claim_C3.2.1 "a".toList (by decide)).1,
   (claim_C3.2.2 "abc".toList "abx".toList (by decide)).1⟩

end Skim

namespace Skim

/-! ### Claim C2: the failing input, evaluated by closed-form row analysis

The matrices on `c2_choice` have one matched cell in row 1 (column 1) and
one in row 2 (column 32815); every `P`-cell of row 1 decays by one
`gap_extension` per column until the score passes the `NEG_INFINITY`
sentinel, after which the recurrence freezes at `-32772` with movement
`Match`.  The final argmax therefore lands on the genuine match cell, but
the traceback, reading the frozen movements, emits an index pointing at a
non-matching character. -/

theorem getD_replicate_lt (x d : Char) : ∀ (n k : Nat), k < n →
    (List.replicate n x).getD k d = x
  | n + 1, 0, _ => rfl
  | n + 1, k + 1, h => by
    rw [List.replicate_succ, List.getD_cons_succ]
    exact getD_replicate_lt x d n k (by omega)

theorem c2_choice_length : c2_choice.length = 32815 := by
  rw [show c2_choice = 'a' :: (List.replicate 32813 'x' ++ ['b']) from rfl,
    List.length_cons, List.length_append, List.length_replicate]
  rfl

theorem c2_pattern_length : c2_pattern.length = 2 := rfl

theorem c2_cols_eq : (32816 : Nat) = c2_choice.length + 1 := by
  rw [c2_choice_length]

theorem c2_choice_getD_zero : c2_choice.getD 0 ' ' = 'a' := rfl

theorem c2_choice_getD_mid (j : Nat) (h1 : 1 ≤ j) (h2 : j ≤ 32813) :
    c2_choice.getD j ' ' = 'x' := by
  obtain ⟨k, rfl⟩ : ∃ k, j = k + 1 := ⟨j - 1, by omega⟩
  rw [show c2_choice = 'a' :: (List.replicate 32813 'x' ++ ['b']) from rfl,
    List.getD_cons_succ,
    List.getD_append _ _ _ _ (by rw [List.length_replicate]; omega)]
  exact getD_replicate_lt 'x' ' ' 32813 k (by omega)

theorem c2_choice_getD_last : c2_choice.getD 32814 ' ' = 'b' := by
  rw [show c2_choice = 'a' :: (List.replicate 32813 'x' ++ ['b']) from rfl,
    show (32814 : Nat) = 32813 + 1 from rfl,
    List.getD_cons_succ,
    List.getD_append_right _ _ _ _ (by rw [List.length_replicate])]
  rw [List.length_replicate]
  rfl

theorem cheap_matches_replicate_skip (p : Char) (pr l : List Char) (b : Bool)
    (h : char_equal 'x' p b = false) (n : Nat) :
    cheap_matches (List.replicate n 'x' ++ l) (p :: pr) b =
      cheap_matches l (p :: pr) b := by
  induction n with
  | zero => rfl
  | succ n ih =>
    rw [List.replicate_succ, List.cons_append]
    show (if char_equal 'x' p b = true then
        cheap_matches (List.replicate n 'x' ++ l) pr b
      else cheap_matches (List.replicate n 'x' ++ l) (p :: pr) b) = _
    rw [h, if_neg (by simp)]
    exact ih

theorem c2_cheap : cheap_matches c2_choice c2_pattern false = true := by
  rw [show c2_choice = 'a' :: (List.replicate 32813 'x' ++ ['b']) from rfl,
    show c2_pattern = 'a' :: ['b'] from rfl]
  show (if char_equal 'a' 'a' false = true then
      cheap_matches (List.replicate 32813 'x' ++ ['b']) ['b'] false
    else cheap_matches (List.replicate 32813 'x' ++ ['b']) ('a' :: ['b']) false) = true
  rw [if_pos (by decide)]
  rw [cheap_matches_replicate_skip 'b' [] ['b'] false (by decide) 32813]
  decide

end Skim

namespace Skim

/-- `calculate_match_score` is `None` whenever the characters are not
`char_equal`, for any previous character and indices. -/
theorem cms_mismatch (cfg : MatcherCfg) (prev c p : Char) (ci pj : Nat) (cs : Bool)
    (h : char_equal c p cs = false) :
    calculate_match_score cfg prev c p ci pj cs = none := by
  unfold calculate_match_score
  rw [if_pos (by rw [h]; exact Bool.false_ne_true)]

theorem cfg_init_gap_start : MatcherCfg.init.score_config.gap_start = -3 := by decide

theorem cfg_init_gap_extension : MatcherCfg.init.score_config.gap_extension = -1 := by
  decide

theorem cfg_init_bonus_consecutive :
    MatcherCfg.init.score_config.bonus_consecutive = 4 := by decide

/-- A cell is determined by its score and movement. -/
theorem cell_eq_of (c : MatrixCell) (mv : Movement) (v : Int)
    (h1 : c.score = v) (h2 : c.movement = mv) :
    c = { movement := mv, score := v } := by
  cases c with
  | mk m s =>
    dsimp only at h1 h2
    rw [h1, h2]

/-- Lengths and border cells of the full V2 fill on fresh buffers: the fill
never writes row 0 or column 0, so they keep their initialization values. -/
theorem bsm_border (cfg : MatcherCfg) (case_sensitive : Bool)
    (choice pattern : List Char) (st : List MatrixCell × List MatrixCell)
    (hst : st = build_score_matrix cfg (pattern.length + 1) (choice.length + 1)
      choice pattern false case_sensitive
      (vec_resize [] ((pattern.length + 1) * (choice.length + 1)))
      (vec_resize [] ((pattern.length + 1) * (choice.length + 1)))) :
    st.1.length = (pattern.length + 1) * (choice.length + 1) ∧
    st.2.length = (pattern.length + 1) * (choice.length + 1) ∧
    (∀ i, i < pattern.length + 1 → mat_get st.1 (choice.length + 1) i 0 =
      { movement := .Skip, score := MATRIX_CELL_NEG_INFINITY }) ∧
    (∀ j, j < choice.length + 1 → mat_get st.1 (choice.length + 1) 0 j =
      { movement := .Skip, score := MATRIX_CELL_NEG_INFINITY }) ∧
    (∀ i, 0 < i → i < pattern.length + 1 → mat_get st.2 (choice.length + 1) i 0 =
      { movement := .Skip, score := MATRIX_CELL_NEG_INFINITY }) ∧
    (∀ j, j < choice.length + 1 → mat_get st.2 (choice.length + 1) 0 j =
      { movement := .Skip, score := cfg.score_config.gap_extension }) := by
  subst hst
  have hcols : 0 < choice.length + 1 := by omega
  have hmlen : (bsm_init cfg (pattern.length + 1) (choice.length + 1)
      (vec_resize [] ((pattern.length + 1) * (choice.length + 1)))
      (vec_resize [] ((pattern.length + 1) * (choice.length + 1)))).1.length =
      (pattern.length + 1) * (choice.length + 1) := by
    unfold bsm_init
    simp only
    rw [init_row0_length, init_col0_length, vec_resize_length]
  have hplen : (bsm_init cfg (pattern.length + 1) (choice.length + 1)
      (vec_resize [] ((pattern.length + 1) * (choice.length + 1)))
      (vec_resize [] ((pattern.length + 1) * (choice.length + 1)))).2.length =
      (pattern.length + 1) * (choice.length + 1) := by
    unfold bsm_init
    simp only
    rw [init_row0_length, init_col0_length, vec_resize_length]
  have hfresh0 : ∀ r c, 0 + 1 ≤ r → 1 ≤ c → c < choice.length + 1 →
      mat_get (bsm_init cfg (pattern.length + 1) (choice.length + 1)
        (vec_resize [] ((pattern.length + 1) * (choice.length + 1)))
        (vec_resize [] ((pattern.length + 1) * (choice.length + 1)))).1
        (choice.length + 1) r c = MatrixCell.init := by
    intro r c hr hc1 hc2
    unfold bsm_init mat_get
    simp only
    rw [init_row0_getD_miss _ _ _ _ (by
      have h1 : 1 * (choice.length + 1) ≤ r * (choice.length + 1) :=
        Nat.mul_le_mul_right _ hr
      omega)]
    rw [init_col0_getD_miss _ _ _ _ _ (by
      intro i' hi' heq
      obtain ⟨-, hc0⟩ := @flat_index_inj r c i' 0 (choice.length + 1) hc2 hcols
        (by rw [Nat.add_zero]; exact heq)
      omega)]
    exact vec_resize_nil_getD _ _
  have hspec := fill_all_spec cfg case_sensitive (choice.length + 1) choice
    (pattern.length + 1) rfl pattern 0
    (bsm_init cfg (pattern.length + 1) (choice.length + 1)
      (vec_resize [] ((pattern.length + 1) * (choice.length + 1)))
      (vec_resize [] ((pattern.length + 1) * (choice.length + 1))))
    (by omega) hmlen hplen hfresh0
  have hstab := hspec.2.2.1
  have hinit := fun (i j : Nat) (hi : i < pattern.length + 1)
      (hj : j < choice.length + 1) =>
    bsm_init_cells cfg (pattern.length + 1) (choice.length + 1) [] [] i j hi hj
  unfold build_score_matrix
  refine ⟨hspec.1, hspec.2.1, ?_, ?_, ?_, ?_⟩
  · intro i hi
    rw [(hstab i 0 hcols (Or.inr rfl)).1]
    exact (hinit i 0 hi hcols).1
  · intro j hj
    rw [(hstab 0 j hj (Or.inl (Nat.le_refl 0))).1]
    exact (hinit 0 j (by omega) hj).2.1
  · intro i hip hi
    rw [(hstab i 0 hcols (Or.inr rfl)).2]
    exact (hinit i 0 hi hcols).2.2.1 hip
  · intro j hj
    rw [(hstab 0 j hj (Or.inl (Nat.le_refl 0))).2]
    exact (hinit 0 j (by omega) hj).2.2.2

/-- The borders and lengths of the `c2_choice` matrices, in numerals. -/
theorem c2_border :
    c2_state.1.length = 98448 ∧
    c2_state.2.length = 98448 ∧
    (∀ i, i < 3 → mat_get c2_state.1 32816 i 0 =
      { movement := .Skip, score := MATRIX_CELL_NEG_INFINITY }) ∧
    (∀ j, j < 32816 → mat_get c2_state.1 32816 0 j =
      { movement := .Skip, score := MATRIX_CELL_NEG_INFINITY }) ∧
    (∀ i, 0 < i → i < 3 → mat_get c2_state.2 32816 i 0 =
      { movement := .Skip, score := MATRIX_CELL_NEG_INFINITY }) ∧
    (∀ j, j < 32816 → mat_get c2_state.2 32816 0 j =
      { movement := .Skip, score := -1 }) := by
  have h := bsm_border MatcherCfg.init false c2_choice c2_pattern c2_state rfl
  rw [c2_choice_length, c2_pattern_length, cfg_init_gap_extension] at h
  norm_num at h
  exact h

/-- The interior-cell recurrence of claim C1, instantiated on `c2_choice`. -/
theorem c2_cellEqs (i j : Nat) (hi : i < 2) (hj : j < 32815) :
    CellEqs MatcherCfg.init false 32816 c2_state (c2_pattern.getD i ' ')
      (c2_choice.getD j ' ')
      (if j = 0 then '\x00' else c2_choice.getD (j - 1) ' ') i j Movement.Skip := by
  rw [c2_cols_eq]
  exact bsm_cellEqs MatcherCfg.init false c2_choice c2_pattern i j
    (by rw [c2_pattern_length]; exact hi) (by rw [c2_choice_length]; exact hj)

end Skim

namespace Skim

/-- Cell `M[1][1]` of the `c2_choice` matrices: the one genuine match of
row 1 (`'a'` against `'a'`). -/
theorem c2_M_1_1 : mat_get c2_state.1 32816 1 1 = { movement := .Skip, score := 31 } := by
  have hcms : calculate_match_score MatcherCfg.init
      (if (0 : Nat) = 0 then '\x00' else c2_choice.getD (0 - 1) ' ')
      (c2_choice.getD 0 ' ') (c2_pattern.getD 0 ' ') 0 0 false = some 32 := by
    rw [if_pos rfl, c2_choice_getD_zero, show c2_pattern.getD 0 ' ' = 'a' from rfl]
    decide
  obtain ⟨hs, hm⟩ := (c2_cellEqs 0 0 (by omega) (by omega)).1 32 hcms
  simp only [Nat.zero_add] at hs hm
  rw [c2_border.2.2.1 0 (by omega)] at hs hm
  rw [c2_border.2.2.2.2.2 0 (by omega)] at hs hm
  rw [cfg_init_bonus_consecutive] at hs
  norm_num [max_def, MATRIX_CELL_NEG_INFINITY] at hs hm
  exact cell_eq_of _ _ _ hs hm

/-- Row 1 of `M` holds the untouched default cell at every column past the
single match. -/
theorem c2_M_row1_mismatch (col : Nat) (h1 : 2 ≤ col) (h2 : col ≤ 32815) :
    mat_get c2_state.1 32816 1 col = MatrixCell.init := by
  have hchar : char_equal (c2_choice.getD (col - 1) ' ') (c2_pattern.getD 0 ' ')
      false = false := by
    rw [show c2_pattern.getD 0 ' ' = 'a' from rfl]
    rcases Nat.lt_or_ge col 32815 with hlt | hge
    · rw [c2_choice_getD_mid (col - 1) (by omega) (by omega)]; decide
    · have hcol : col = 32815 := by omega
      subst hcol
      rw [show (32815 : Nat) - 1 = 32814 from rfl, c2_choice_getD_last]; decide
  have hnone := cms_mismatch MatcherCfg.init
    (if col - 1 = 0 then '\x00' else c2_choice.getD (col - 1 - 1) ' ')
    (c2_choice.getD (col - 1) ' ') (c2_pattern.getD 0 ' ') 0 (col - 1) false hchar
  have h := (c2_cellEqs 0 (col - 1) (by omega) (by omega)).2.1 hnone
  rw [show (col - 1) + 1 = col from by omega] at h
  simp only [Nat.zero_add] at h
  exact h

/-- Cell `P[1][1]`: one gap step left of nothing — just under the sentinel. -/
theorem c2_P_1_1 : mat_get c2_state.2 32816 1 1 = { movement := .Skip, score := -32769 } := by
  obtain ⟨-, -, hs, hm⟩ := c2_cellEqs 0 0 (by omega) (by omega)
  simp only [Nat.zero_add] at hs hm
  rw [c2_border.2.2.1 1 (by omega)] at hs hm
  rw [c2_border.2.2.2.2.1 1 (by omega) (by omega)] at hs hm
  rw [cfg_init_gap_start, cfg_init_gap_extension] at hs hm
  norm_num [max_def, MATRIX_CELL_NEG_INFINITY] at hs hm
  exact cell_eq_of _ _ _ hs hm

/-- Cell `P[1][2]`: a gap opened right after the row-1 match. -/
theorem c2_P_1_2 : mat_get c2_state.2 32816 1 2 = { movement := .Match, score := 27 } := by
  obtain ⟨-, -, hs, hm⟩ := c2_cellEqs 0 1 (by omega) (by omega)
  simp only [Nat.zero_add] at hs hm
  norm_num at hs hm
  rw [c2_M_1_1, c2_P_1_1] at hs hm
  rw [cfg_init_gap_start, cfg_init_gap_extension] at hs hm
  norm_num [max_def] at hs hm
  exact cell_eq_of _ _ _ hs hm

/-- Row 1 of `P` decays by one `gap_extension` per column while the score is
still above the frozen floor: `P[1][col] = 29 - col` for `2 ≤ col ≤ 32801`. -/
theorem c2_P_1_mid : ∀ col, 2 ≤ col → col ≤ 32801 →
    (mat_get c2_state.2 32816 1 col).score = 29 - (col : Int) := by
  intro col
  induction col with
  | zero => intro h1 h2; omega
  | succ n ih =>
    intro h1 h2
    rcases Nat.lt_or_ge n 2 with hn | hn
    · have hcol : n + 1 = 2 := by omega
      rw [hcol, c2_P_1_2]
      norm_num
    · obtain ⟨-, -, hs, -⟩ := c2_cellEqs 0 n (by omega) (by omega)
      simp only [Nat.zero_add] at hs
      rw [c2_M_row1_mismatch n (by omega) (by omega)] at hs
      rw [ih (by omega) (by omega)] at hs
      rw [cfg_init_gap_start, cfg_init_gap_extension] at hs
      rw [hs]
      rw [show MatrixCell.init.score = -32768 from rfl]
      rw [max_eq_right (by push_cast; omega)]
      push_cast
      ring

/-- Past column 32801, row 1 of `P` freezes at `-32772` with movement
`Match` (the two recurrence arms tie, and ties go to `Match`). -/
theorem c2_P_1_hi : ∀ col, 32802 ≤ col → col ≤ 32815 →
    mat_get c2_state.2 32816 1 col = { movement := .Match, score := -32772 } := by
  intro col
  induction col with
  | zero => intro h1 h2; omega
  | succ n ih =>
    intro h1 h2
    obtain ⟨-, -, hs, hm⟩ := c2_cellEqs 0 n (by omega) (by omega)
    simp only [Nat.zero_add] at hs hm
    rw [c2_M_row1_mismatch n (by omega) (by omega)] at hs hm
    rcases Nat.lt_or_ge n 32802 with hn | hn
    · have hneq : n = 32801 := by omega
      subst hneq
      rw [show ((mat_get c2_state.2 32816 1 32801).score) =
        29 - ((32801 : Nat) : Int) from c2_P_1_mid 32801 (by omega) (by omega)] at hs hm
      rw [cfg_init_gap_start, cfg_init_gap_extension] at hs hm
      norm_num [max_def, MATRIX_CELL_NEG_INFINITY] at hs hm
      exact cell_eq_of _ _ _ hs hm
    · rw [ih (by omega) (by omega)] at hs hm
      rw [cfg_init_gap_start, cfg_init_gap_extension] at hs hm
      norm_num [max_def, MATRIX_CELL_NEG_INFINITY] at hs hm
      exact cell_eq_of _ _ _ hs hm

end Skim

namespace Skim

/-- Row 2 of `M` holds the untouched default cell at every column except the
last (`'b'` only matches the final choice character). -/
theorem c2_M_row2_mismatch (col : Nat) (h1 : 1 ≤ col) (h2 : col ≤ 32814) :
    mat_get c2_state.1 32816 2 col = MatrixCell.init := by
  have hchar : char_equal (c2_choice.getD (col - 1) ' ') (c2_pattern.getD 1 ' ')
      false = false := by
    rw [show c2_pattern.getD 1 ' ' = 'b' from rfl]
    rcases Nat.lt_or_ge col 2 with hc | hc
    · have hcol : col = 1 := by omega
      subst hcol
      rw [show (1 : Nat) - 1 = 0 from rfl, c2_choice_getD_zero]; decide
    · rw [c2_choice_getD_mid (col - 1) (by omega) (by omega)]; decide
  have hnone := cms_mismatch MatcherCfg.init
    (if col - 1 = 0 then '\x00' else c2_choice.getD (col - 1 - 1) ' ')
    (c2_choice.getD (col - 1) ' ') (c2_pattern.getD 1 ' ') 1 (col - 1) false hchar
  have h := (c2_cellEqs 1 (col - 1) (by omega) (by omega)).2.1 hnone
  rw [show (col - 1) + 1 = col from by omega] at h
  norm_num at h
  exact h

/-- The last cell of row 2: the genuine `'b'` match.  Its score sits above
the sentinel, and its movement is `Match` because the untouched default of
`M[1][32814]` (the sentinel) still beats the decayed `P[1][32814]`. -/
theorem c2_M_2_last :
    mat_get c2_state.1 32816 2 32815 = { movement := .Match, score := -32748 } := by
  have hcms : calculate_match_score MatcherCfg.init
      (if (32814 : Nat) = 0 then '\x00' else c2_choice.getD (32814 - 1) ' ')
      (c2_choice.getD 32814 ' ') (c2_pattern.getD 1 ' ') 1 32814 false = some 16 := by
    rw [if_neg (by omega), show (32814 : Nat) - 1 = 32813 from rfl,
      c2_choice_getD_mid 32813 (by omega) (by omega), c2_choice_getD_last,
      show c2_pattern.getD 1 ' ' = 'b' from rfl]
    decide
  obtain ⟨hs, hm⟩ := (c2_cellEqs 1 32814 (by omega) (by omega)).1 16 hcms
  norm_num at hs hm
  rw [c2_M_row1_mismatch 32814 (by omega) (by omega)] at hs hm
  rw [c2_P_1_hi 32814 (by omega) (by omega)] at hs hm
  rw [cfg_init_bonus_consecutive] at hs
  norm_num [max_def, MATRIX_CELL_NEG_INFINITY] at hs hm
  exact cell_eq_of _ _ _ hs hm

/-- The fold underlying `max_by_key_last` returns the accumulator or a list
element. -/
theorem foldl_max_mem {α : Type} (key : α → Int) (l : List α) (acc : α) :
    l.foldl (fun a y => if key y ≥ key a then y else a) acc ∈ acc :: l := by
  induction l generalizing acc with
  | nil => exact List.mem_cons_self _ _
  | cons x xs ih =>
    rw [List.foldl_cons]
    rcases List.mem_cons.mp (ih (if key x ≥ key acc then x else acc)) with h1 | h2
    · rw [h1]
      split_ifs
      · exact List.mem_cons_of_mem _ (List.mem_cons_self _ _)
      · exact List.mem_cons_self _ _
    · exact List.mem_cons_of_mem _ (List.mem_cons_of_mem _ h2)

/-- `max_by_key_last` picks the final element when its key strictly beats
every earlier one. -/
theorem max_by_key_last_append {α : Type} (key : α → Int) (l : List α) (x : α)
    (h : ∀ y ∈ l, key y < key x) :
    max_by_key_last key (l ++ [x]) = some x := by
  cases l with
  | nil => rfl
  | cons a l' =>
    rw [List.cons_append]
    show some ((l' ++ [x]).foldl (fun acc y => if key y ≥ key acc then y else acc) a) =
      some x
    rw [List.foldl_append, List.foldl_cons, List.foldl_nil]
    have hlt : key (l'.foldl (fun acc y => if key y ≥ key acc then y else acc) a) <
        key x := by
      rcases List.mem_cons.mp (foldl_max_mem key l' a) with h1 | h2
      · rw [h1]; exact h a (List.mem_cons_self a l')
      · exact h _ (List.mem_cons_of_mem _ h2)
    rw [if_pos (le_of_lt hlt)]

/-- A matrix row read is the pointwise cell read over a column range. -/
theorem mat_get_row_eq_map (m : List MatrixCell) (cols r : Nat)
    (h : r * cols + cols ≤ m.length) :
    mat_get_row m cols r = (List.range cols).map (fun c => mat_get m cols r c) := by
  unfold mat_get_row mat_get
  refine List.ext_getElem ?_ ?_
  · rw [List.length_take, List.length_drop, List.length_map, List.length_range]
    omega
  · intro i hi1 hi2
    rw [List.getElem_take, List.getElem_drop, List.getElem_map, List.getElem_range]
    rw [List.getD_eq_getElem m MatrixCell.init (by
      rw [List.length_take, List.length_drop] at hi1
      omega)]

theorem mem_enum_snd {α : Type} (l : List α) (y : Nat × α) (h : y ∈ l.enum) :
    y.2 ∈ l := by
  rw [List.enum_eq_zip_range] at h
  obtain ⟨a, b⟩ := y
  exact (List.of_mem_zip h).2

theorem enumFrom_singleton {α : Type} (n : Nat) (x : α) : [x].enumFrom n = [(n, x)] := rfl

end Skim

namespace Skim

/-- The last matrix row on `c2_choice`, as a pointwise map. -/
theorem c2_last_row : mat_get_row c2_state.1 32816 2 =
    (List.range 32816).map (fun c => mat_get c2_state.1 32816 2 c) := by
  refine mat_get_row_eq_map c2_state.1 32816 2 ?_
  rw [c2_border.1]

/-- The last-row argmax on `c2_choice` lands on the final column: its score
`-32748` strictly beats the `-32768` everywhere else in the row. -/
theorem c2_best : max_by_key_last (fun c => c.2.score)
    (mat_get_row c2_state.1 32816 2).enum =
    some (32815, { movement := .Match, score := -32748 }) := by
  rw [c2_last_row]
  have hr : List.range 32816 = List.range 32815 ++ [32815] := by
    rw [show (32816 : Nat) = 32815 + 1 from rfl, List.range_succ]
  rw [hr, List.map_append, List.map_singleton, List.enum_append,
    List.length_map, List.length_range, enumFrom_singleton, c2_M_2_last]
  refine max_by_key_last_append _ _ _ ?_
  intro y hy
  show y.2.score < ({ movement := Movement.Match, score := (-32748 : Int) } :
    MatrixCell).score
  obtain ⟨c, hc, hfc⟩ := List.mem_map.mp (mem_enum_snd _ y hy)
  have hcr : c < 32815 := List.mem_range.mp hc
  rw [← hfc]
  rcases Nat.eq_zero_or_pos c with hc0 | hcpos
  · subst hc0
    rw [c2_border.2.2.1 2 (by omega)]
    norm_num [MATRIX_CELL_NEG_INFINITY]
  · rw [c2_M_row2_mismatch c (by omega) (by omega)]
    norm_num [MatrixCell.init, MATRIX_CELL_NEG_INFINITY]

/-- One step of the V2 traceback loop. -/
theorem traceback_v2_step (m p : List MatrixCell) (cols i j : Nat) (mm : Bool)
    (cur : Movement) (acc : List IndexType) (hi : i ≠ 0) (hj : j ≠ 0) :
    traceback_v2 m p cols i j mm cur acc =
      traceback_v2 m p cols (if mm then i - 1 else i) (j - 1)
        ((if mm then mat_get m cols i j else mat_get p cols i j).movement = .Match)
        ((if mm then mat_get m cols i j else mat_get p cols i j).movement)
        (if cur = .Match then acc ++ [j - 1] else acc) := by
  cases i with
  | zero => exact absurd rfl hi
  | succ i0 =>
    cases j with
    | zero => exact absurd rfl hj
    | succ j0 => rfl

/-- The V2 traceback stops at row 0. -/
theorem traceback_v2_done (m p : List MatrixCell) (cols j : Nat) (mm : Bool)
    (cur : Movement) (acc : List IndexType) :
    traceback_v2 m p cols 0 j mm cur acc = acc.reverse := by
  cases j <;> rfl

/-- The traceback on `c2_choice`: the frozen `Match` recorded at the final
cell sends the cursor into the untouched default cell `M[1][32814]`, which
nevertheless emits index 32813 before the loop exits. -/
theorem c2_traceback :
    traceback_v2 c2_state.1 c2_state.2 32816 2 32815 true Movement.Match [] =
      [32813, 32814] := by
  have h1 : traceback_v2 c2_state.1 c2_state.2 32816 2 32815 true Movement.Match [] =
      traceback_v2 c2_state.1 c2_state.2 32816 1 32814 true Movement.Match [32814] := by
    rw [traceback_v2_step _ _ _ _ _ _ _ _ (by omega) (by omega)]
    norm_num [c2_M_2_last]
  have h2 : traceback_v2 c2_state.1 c2_state.2 32816 1 32814 true Movement.Match
      [32814] =
      traceback_v2 c2_state.1 c2_state.2 32816 0 32813 false Movement.Skip
        [32814, 32813] := by
    rw [traceback_v2_step _ _ _ _ _ _ _ _ (by omega) (by omega)]
    norm_num [c2_M_row1_mismatch 32814 (by omega) (by omega), MatrixCell.init]
    rfl
  rw [h1, h2, traceback_v2_done]
  rfl

end Skim

namespace Skim

/-- `SkimMatcherV2::fuzzy` with `with_pos = true`, on a case-insensitive
pattern that survives the cheap prefilter, with no element limit: the
result is the last-row argmax of the full score matrix together with the
traceback from it. -/
theorem fuzzy_full_unfold (cfg : MatcherCfg) (mc pc : List MatrixCell)
    (choice pattern : List Char)
    (hpat : pattern ≠ [])
    (hcs : case_sensitive_of cfg pattern = false)
    (hch : cheap_matches choice pattern false = true)
    (hel : cfg.element_limit = 0) :
    (fuzzy cfg mc pc choice pattern true).1 =
      some
        (((max_by_key_last (fun c => c.2.score)
            (mat_get_row (build_score_matrix cfg (pattern.length + 1) (choice.length + 1)
              choice pattern false false
              (vec_resize mc ((pattern.length + 1) * (choice.length + 1)))
              (vec_resize pc ((pattern.length + 1) * (choice.length + 1)))).1
            (choice.length + 1) pattern.length).enum).getD (0, MatrixCell.init)).2.score,
         traceback_v2
          (build_score_matrix cfg (pattern.length + 1) (choice.length + 1)
            choice pattern false false
            (vec_resize mc ((pattern.length + 1) * (choice.length + 1)))
            (vec_resize pc ((pattern.length + 1) * (choice.length + 1)))).1
          (build_score_matrix cfg (pattern.length + 1) (choice.length + 1)
            choice pattern false false
            (vec_resize mc ((pattern.length + 1) * (choice.length + 1)))
            (vec_resize pc ((pattern.length + 1) * (choice.length + 1)))).2
          (choice.length + 1) pattern.length
          ((max_by_key_last (fun c => c.2.score)
            (mat_get_row (build_score_matrix cfg (pattern.length + 1) (choice.length + 1)
              choice pattern false false
              (vec_resize mc ((pattern.length + 1) * (choice.length + 1)))
              (vec_resize pc ((pattern.length + 1) * (choice.length + 1)))).1
            (choice.length + 1) pattern.length).enum).getD (0, MatrixCell.init)).1
          true Movement.Match []) := by
  unfold fuzzy
  rw [if_neg hpat]
  dsimp only
  rw [hcs, hch]
  rw [hel]
  have hF : (¬ (true : Bool) = true) = False := by simp
  simp only [hF, eq_self_iff_true, if_true, if_false, decide_False, Bool.false_eq_true,
    lt_self_iff_false, false_and, adjust_row_idx, Nat.add_sub_cancel, not_true,
    decide_False, if_false, not_false_iff]

end Skim

namespace Skim

/-- The V2 matcher on `c2_choice`/`c2_pattern` (fresh thread, default
configuration): score `-32748` with positions `[32813, 32814]`. -/
theorem c2_fuzzy : (fuzzy MatcherCfg.init [] [] c2_choice c2_pattern true).1 =
    some (-32748, [32813, 32814]) := by
  rw [fuzzy_full_unfold MatcherCfg.init [] [] c2_choice c2_pattern
    (by decide) (by decide) c2_cheap rfl]
  have hstate : build_score_matrix MatcherCfg.init (c2_pattern.length + 1)
      (c2_choice.length + 1) c2_choice c2_pattern false false
      (vec_resize [] ((c2_pattern.length + 1) * (c2_choice.length + 1)))
      (vec_resize [] ((c2_pattern.length + 1) * (c2_choice.length + 1))) = c2_state := rfl
  rw [hstate]
  rw [show c2_pattern.length = 2 from rfl]
  rw [← c2_cols_eq]
  rw [c2_best]
  rw [Option.getD_some]
  dsimp only
  rw [c2_traceback]

end Skim

namespace Skim

/-- Claim C2 (refuting instance, V2): on `c2_choice` (`"a"` + 32813 ×
`"x"` + `"b"`) against `c2_pattern = "ab"`, `fuzzy_indices` of the default
`SkimMatcherV2` returns `Some((-32748, [32813, 32814]))`, yet the choice
character at index 32813 is `'x'`, which does not equal the first pattern
character `'a'` under the active (smart, here insensitive) case policy —
nor under the sensitive one.  The claim's index fidelity fails: the valid
alignment's score drifts below the `NEG_INFINITY` sentinel, so the
traceback walks through a cell whose default movement was never written. -/
theorem claim_C2_divergence :
    (fuzzy MatcherCfg.init [] [] c2_choice c2_pattern true).1 =
      some (-32748, [32813, 32814]) ∧
    c2_pattern.getD 0 ' ' = 'a' ∧
    c2_choice.getD 32813 ' ' = 'x' ∧
    case_sensitive_of MatcherCfg.init c2_pattern = false ∧
    char_equal 'x' 'a' false = false ∧
    char_equal 'x' 'a' true = false :=
  ⟨c2_fuzzy, rfl, c2_choice_getD_mid 32813 (by omega) (by omega),
   by decide, by decide, by decide⟩

end Skim
